import Mathlib

/-!
# State alignment search (`state_align_search.c`)

A shallow embedding of the forced state-alignment search: the chain of phone
HMMs with their forced windows, the frame-synchronous step (evaluation,
pruning, phone transition, token recording), the backtrace that populates the
state-level alignment entries, and the hypothesis / segment reporters.

Conventions of the embedding.

* C `int` / `int32` values are `Int`; signed overflow is undefined in C and is
  not modelled.  Frame indices passed to the step functions and `sas->frame`
  are `Nat` (a negative index is an access before the token array).
* The `id` field of a token record is a 16-bit unsigned integer: storing an
  `int32` backpointer truncates it modulo `2^16`, so the HMM-level sentinel
  `-1` is read back as `0xffff`.
* A function that can hit a failed `assert` or an access outside an array
  returns `Option`; `none` stands for that fault, and is distinct from the
  C-level return codes `-1` / `0` / `NULL`.
* The collaborators that live outside this file (Viterbi evaluation of one
  HMM, the acoustic scorer, the dictionary) are parameters.
-/

namespace StateAlign

/-! ## Constants -/

/-- The token id left by `memset(..., 0xff, ...)`: the "never reached" sentinel. -/
def INVALID : Nat := 0xffff

/-- The constant `WORST_SCORE`, `(int32)0xE0000000`. -/
def WORST_SCORE : Int := -536870912

/-- The constant `INT_MAX` for a 32-bit `int`. -/
def INT_MAX : Int := 2147483647

/-- The constant `TOKEN_STEP`. -/
def TOKEN_STEP : Nat := 20

/-- Conversion of an `int32` to the 16-bit unsigned token id. -/
def toU16 (x : Int) : Nat := (x % 65536).toNat

/-- A C string, without its terminating NUL. -/
abbrev CStr := List Char

/-! ## Data model -/

/-- The record `state_align_hist_t`: origin id and path score. -/
structure Hist where
  id : Nat
  score : Int
deriving DecidableEq, Repr

/-- The fields of `hmm_t` used by the search.  `score` and `history` are the
per-emitting-state arrays; `frame` is the last-active-frame marker. -/
structure Hmm where
  score : List Int
  history : List Int
  out_score : Int
  out_history : Int
  ssid : Int
  tmatid : Int
  frame : Int
deriving DecidableEq, Repr

/-- The record `ps_alignment_entry_t`.  The C union `id` is flattened: `wid` is
meaningful for word-level entries, `ssid`/`tmatid` for phone-level entries.
`parent` is the index of the enclosing entry one level up. -/
structure Entry where
  start : Int
  duration : Int
  score : Int
  wid : Int
  ssid : Int
  tmatid : Int
  parent : Nat
deriving DecidableEq, Repr

/-- The alignment `ps_alignment_t`: word, phone (`sseq`) and state levels.
`propagations` counts the upward propagations requested so far. -/
structure Alignment where
  word : List Entry
  sseq : List Entry
  state : List Entry
  propagations : Nat
deriving DecidableEq, Repr

/-- The search object `state_align_search_t`.  `n_phones` is the length of
`hmms`; `ctx_n_emit_state` is `hmmctx->n_emit_state` (states per phone);
`tokens` is the flat token array; `hyp_str` is the cached hypothesis string of
the base search. -/
structure SAS where
  al : Option Alignment
  hmms : List Hmm
  sf : List Int
  ef : List Int
  frame : Nat
  best_score : Int
  tokens : List Hist
  n_emit_state : Nat
  n_fr_alloc : Nat
  ctx_n_emit_state : Nat
  hyp_str : Option CStr
deriving DecidableEq, Repr

/-- The number of phones, `sas->n_phones`. -/
def SAS.n_phones (s : SAS) : Nat := s.hmms.length

/-- What `hmm_vit_eval` may change in an HMM, and the score it returns. -/
structure VitOut where
  score : List Int
  history : List Int
  out_score : Int
  out_history : Int
  best : Int

/-- The collaborators of the stepping engine. -/
structure Collab where
  /-- Modelled from the spec: the acoustic scorer `acmod_score`; given a frame
  index it returns the vector of per-state observation scores of that frame. -/
  acmod_score : Nat → List Int
  /-- Modelled from the spec: the Viterbi update of one HMM under the current
  observation scores (`hmm_vit_eval`, in `hmm.c`); it rewrites the state
  scores and backpointers and the exit score and backpointer, and returns the
  best score of the instance. It does not touch the last-active-frame marker. -/
  vit : List Int → Hmm → VitOut

/-- The dictionary collaborator. -/
structure Dict where
  real_word : Int → Bool
  basestr : Int → Option CStr
  wordstr : Int → Option CStr

/-! ## HMM accessors (`hmm.h`) -/

/-- The accessor `hmm_in_score`: the score of local state 0. -/
def hmm_in_score (h : Hmm) : Int := h.score.getD 0 WORST_SCORE

/-- The accessor `hmm_in_history`: the backpointer of local state 0. -/
def hmm_in_history (h : Hmm) : Int := h.history.getD 0 (-1)

/-- Modelled from the spec: `hmm_enter(h, s, i, f)` (in `hmm.h`) sets the
incoming score, the incoming backpointer and the last-active-frame marker. -/
def hmm_enter (h : Hmm) (s : Int) (i : Int) (f : Int) : Hmm :=
  { h with score := h.score.set 0 s, history := h.history.set 0 i, frame := f }

/-- Modelled from the spec: `hmm_init` (in `hmm.c`) creates an instance that has
not been reached: every score is `WORST_SCORE`, every backpointer is `-1`, and
the marker is `-1` (inactive). -/
def hmm_init (nstate : Nat) (ssid tmatid : Int) : Hmm :=
  { score := List.replicate nstate WORST_SCORE
    history := List.replicate nstate (-1)
    out_score := WORST_SCORE
    out_history := -1
    ssid := ssid
    tmatid := tmatid
    frame := -1 }

/-- Modelled from the spec: `hmm_normalize` (in `hmm.c`) subtracts the running
best score from every score of the instance that is better than `WORST_SCORE`. -/
def hmm_normalize (h : Hmm) (norm : Int) : Hmm :=
  { h with
    score := h.score.map (fun x => if x > WORST_SCORE then x - norm else x)
    out_score := if h.out_score > WORST_SCORE then h.out_score - norm else h.out_score }

/-- Application of `hmm_vit_eval` to one instance: the updated instance and the
returned score. -/
def hmm_vit_eval (c : Collab) (senscr : List Int) (h : Hmm) : Hmm × Int :=
  let r := c.vit senscr h
  ({ h with score := r.score, history := r.history,
            out_score := r.out_score, out_history := r.out_history }, r.best)

/-! ## Alignment collaborator -/

/-- Modelled from the spec: one level of upward propagation.  A parent with
children takes the least child start, the sum of the child durations and the
sum of the child scores; a parent without children is left alone. -/
def propagate_level (children : List Entry) (parents : List Entry) : List Entry :=
  parents.enum.map fun pe =>
    match children.filter (fun c => c.parent = pe.1) with
    | [] => pe.2
    | c :: cs =>
      { pe.2 with
        start := (cs.map Entry.start).foldl min c.start
        duration := ((c :: cs).map Entry.duration).sum
        score := ((c :: cs).map Entry.score).sum }

/-- Modelled from the spec: `ps_alignment_propagate` (in `ps_alignment.c`)
propagates state-level timings into the phone level and then the phone level
into the word level.  State-level entries are not modified. -/
def ps_alignment_propagate (al : Alignment) : Alignment :=
  let sseq := propagate_level al.state al.sseq
  { al with
    sseq := sseq
    word := propagate_level sseq al.word
    propagations := al.propagations + 1 }

/-! ## `state_align_search_finish` -/

/-- The local variables of the backtrace loop, together with the state-level
entry vector the iterator walks and the log of the entries written so far
(position and new contents, in the order written). -/
structure Walk where
  cur : Hist
  last : Hist
  last_frame : Int
  state : List Entry
  written : List (Nat × Entry)
deriving DecidableEq, Repr

/-- One iteration of the backtrace loop, for `cur_frame = k`.  `none` is a read
outside the token array or a failed `assert(itor != NULL)`. -/
def backtrace_frame (tokens : List Hist) (n_emit_state : Nat) (k : Nat) (w : Walk) :
    Option Walk :=
  match tokens[k * n_emit_state + w.cur.id]? with
  | none => none
  | some cur =>
    if cur.id ≠ w.last.id then
      match w.state[w.last.id]? with
      | none => none
      | some ent =>
        let start : Int := (k : Int) + 1
        let ent1 : Entry :=
          { ent with start := start
                     duration := w.last_frame - start
                     score := w.last.score - cur.score }
        some { cur := cur
               last := cur
               last_frame := (k : Int) + 1
               state := w.state.set w.last.id ent1
               written := w.written ++ [(w.last.id, ent1)] }
    else
      some { w with cur := cur }

/-- The backtrace loop `for (cur_frame = k - 1; cur_frame >= 0; --cur_frame)`. -/
def backtrace_loop (tokens : List Hist) (n_emit_state : Nat) : Nat → Walk → Option Walk
  | 0, w => some w
  | k + 1, w =>
    match backtrace_frame tokens n_emit_state k w with
    | none => none
    | some w1 => backtrace_loop tokens n_emit_state k w1

/-- The update of the alignment entry of the initial state after the loop. -/
def backtrace_close (w : Walk) : Option Walk :=
  match w.state[0]? with
  | none => none
  | some ent =>
    let ent1 : Entry := { ent with start := 0, duration := w.last_frame }
    some { w with state := w.state.set 0 ent1, written := w.written ++ [(0, ent1)] }

/-- The part of `state_align_search_finish` between the sentinel test and the
propagation request: the loop followed by the closing write. -/
def finish_walk (s : SAS) (al : Alignment) (last : Hist) : Option Walk :=
  match backtrace_loop s.tokens s.n_emit_state s.frame
      { cur := last, last := last, last_frame := (s.frame : Int) + 1,
        state := al.state, written := [] } with
  | none => none
  | some w => backtrace_close w

/-- The exit record of the final phone, `(hmm_out_history, hmm_out_score)` as
stored into `last`; `none` when there is no phone. -/
def final_exit (s : SAS) : Option Hist :=
  match s.hmms.getLast? with
  | none => none
  | some final_phone => some { id := toU16 final_phone.out_history, score := final_phone.out_score }

/-- The function `state_align_search_finish`: return code and search object. -/
def state_align_search_finish (s : SAS) : Option (Int × SAS) :=
  match final_exit s with
  | none => none
  | some last =>
    if last.id = 0xffff then
      some (-1, s)
    else
      match s.al with
      | none => none
      | some al =>
        match finish_walk s al last with
        | none => none
        | some w =>
          some (0, { s with al := some (ps_alignment_propagate { al with state := w.state }) })

/-- The entries written by `state_align_search_finish`, in the order written;
`none` when it writes nothing (failure return or fault). -/
def finish_writes (s : SAS) : Option (List (Nat × Entry)) :=
  match final_exit s with
  | none => none
  | some last =>
    if last.id = 0xffff then none
    else
      match s.al with
      | none => none
      | some al => (finish_walk s al last).map Walk.written

/-! ## The stepping engine -/

/-- The function `state_align_search_start`: activate the initial state with
`hmm_enter(sas->hmms, 0, 0, 0)`. -/
def state_align_search_start (s : SAS) : SAS :=
  match s.hmms with
  | [] => s
  | h :: hs => { s with hmms := hmm_enter h 0 0 0 :: hs }

/-- The function `renormalize_hmms`. -/
def renormalize_hmms (s : SAS) (norm : Int) : SAS :=
  { s with hmms := s.hmms.map (fun h => hmm_normalize h norm) }

/-- The loop of `evaluate_hmms` over the remaining instances, threading the
best score `bs`. -/
def evaluate_loop (c : Collab) (senscr : List Int) (frame_idx : Nat) :
    List Hmm → Int → List Hmm × Int
  | [], bs => ([], bs)
  | h :: hs, bs =>
    if h.frame < (frame_idx : Int) then
      let r := evaluate_loop c senscr frame_idx hs bs
      (h :: r.1, r.2)
    else
      let e := hmm_vit_eval c senscr h
      let r := evaluate_loop c senscr frame_idx hs (if e.2 > bs then e.2 else bs)
      (e.1 :: r.1, r.2)

/-- The function `evaluate_hmms`: the updated search object and the best score. -/
def evaluate_hmms (c : Collab) (s : SAS) (senscr : List Int) (frame_idx : Nat) : SAS × Int :=
  let r := evaluate_loop c senscr frame_idx s.hmms WORST_SCORE
  ({ s with hmms := r.1 }, r.2)

/-- The body of the loop of `prune_hmms` for instance `i`. -/
def prune_hmm (ef : List Int) (frame_idx : Nat) (i : Nat) (hmm : Hmm) : Hmm :=
  let nf : Int := (frame_idx : Int) + 1
  if hmm.frame < (frame_idx : Int) then hmm
  else if nf > ef.getD i 0 then hmm
  else { hmm with frame := nf }

/-- The loop of `prune_hmms` from instance `i` on. -/
def prune_loop (ef : List Int) (frame_idx : Nat) : Nat → List Hmm → List Hmm
  | _, [] => []
  | i, h :: hs => prune_hmm ef frame_idx i h :: prune_loop ef frame_idx (i + 1) hs

/-- The function `prune_hmms`. -/
def prune_hmms (s : SAS) (frame_idx : Nat) : SAS :=
  { s with hmms := prune_loop s.ef frame_idx 0 s.hmms }

/-- The body of the loop of `phone_transition` for the pair `(i, i + 1)`: the
successor after the pair has been processed. -/
def transition_pair (sf : List Int) (frame_idx : Nat) (i : Nat) (hmm nhmm : Hmm) : Hmm :=
  let nf : Int := (frame_idx : Int) + 1
  if hmm.frame ≠ nf then nhmm
  else if nf < sf.getD (i + 1) 0 then nhmm
  else
    let newphone_score := hmm.out_score
    if nhmm.frame < (frame_idx : Int) ∨ newphone_score > hmm_in_score nhmm then
      hmm_enter nhmm newphone_score hmm.out_history nf
    else nhmm

/-- The loop of `phone_transition` from pair `(i, i + 1)` on: `hmm` is instance
`i` as the earlier iterations left it, the list holds the instances after it.
The loop ends when instance `i` has no successor. -/
def transition_loop (sf : List Int) (frame_idx : Nat) : Nat → Hmm → List Hmm → List Hmm
  | _, hmm, [] => [hmm]
  | i, hmm, nhmm :: rest =>
    hmm :: transition_loop sf frame_idx (i + 1) (transition_pair sf frame_idx i hmm nhmm) rest

/-- The whole loop of `phone_transition` over the instance vector. -/
def transition_all (sf : List Int) (frame_idx : Nat) : List Hmm → List Hmm
  | [] => []
  | hmm :: rest => transition_loop sf frame_idx 0 hmm rest

/-- The function `phone_transition`. -/
def phone_transition (s : SAS) (frame_idx : Nat) : SAS :=
  { s with hmms := transition_all s.sf frame_idx s.hmms }

/-- The record written by `memset(..., 0xff, ...)`. -/
def invalid_hist : Hist := { id := 0xffff, score := -1 }

/-- Overwrite `n` consecutive records of the token array, from index `base`. -/
def memset_ff : Nat → Nat → List Hist → List Hist
  | _, 0, tokens => tokens
  | base, n + 1, tokens => memset_ff (base + 1) n (tokens.set base invalid_hist)

/-- The function `extend_tokenstack`.  Records added by the reallocation have
indeterminate contents; `junk` stands for them. -/
def extend_tokenstack (junk : Hist) (s : SAS) (frame_idx : Nat) : SAS :=
  let s1 : SAS :=
    if frame_idx ≥ s.n_fr_alloc then
      let n_fr_alloc := frame_idx + TOKEN_STEP + 1
      { s with
        n_fr_alloc := n_fr_alloc
        tokens := s.tokens.take (s.n_emit_state * n_fr_alloc) ++
          List.replicate (s.n_emit_state * n_fr_alloc - s.tokens.length) junk }
    else s
  { s1 with tokens := memset_ff (frame_idx * s1.n_emit_state) s1.n_emit_state s1.tokens }

/-- The inner loop of `record_transitions` for instance `i`, from local state
`j` on, for `m` more states: the token array and the instance. -/
def record_states (base : Nat) (nstate : Nat) (i : Nat) :
    Nat → Nat → List Hist → Hmm → List Hist × Hmm
  | _, 0, tokens, hmm => (tokens, hmm)
  | j, m + 1, tokens, hmm =>
    let state_idx := i * nstate + j
    let tok : Hist := { id := toU16 (hmm.history.getD j (-1)), score := hmm.score.getD j WORST_SCORE }
    record_states base nstate i (j + 1) m (tokens.set (base + state_idx) tok)
      { hmm with history := hmm.history.set j (state_idx : Int) }

/-- The outer loop of `record_transitions` from instance `i` on. -/
def record_loop (base : Nat) (nstate : Nat) (frame_idx : Nat) :
    Nat → List Hmm → List Hist → List Hist × List Hmm
  | _, [], tokens => (tokens, [])
  | i, hmm :: hs, tokens =>
    if hmm.frame < (frame_idx : Int) then
      let r := record_loop base nstate frame_idx (i + 1) hs tokens
      (r.1, hmm :: r.2)
    else
      let q := record_states base nstate i 0 nstate tokens hmm
      let r := record_loop base nstate frame_idx (i + 1) hs q.1
      (r.1, q.2 :: r.2)

/-- The function `record_transitions`. -/
def record_transitions (junk : Hist) (s : SAS) (frame_idx : Nat) : SAS :=
  let s1 := extend_tokenstack junk s frame_idx
  let r := record_loop (frame_idx * s1.n_emit_state) s1.ctx_n_emit_state frame_idx 0
    s1.hmms s1.tokens
  { s1 with tokens := r.1, hmms := r.2 }

/-- The last-active-frame marker of instance `i` (`-1` when there is no such
instance). -/
def marker (s : SAS) (i : Nat) : Int := (s.hmms.map Hmm.frame).getD i (-1)

/-- The first loop of `state_align_search_step`: the instances handed to
`acmod_activate_hmm` for acoustic scoring, those whose marker equals
`frame_idx`.  The activation acts on the acoustic model only. -/
def step_activated (s : SAS) (frame_idx : Nat) : List Nat :=
  (List.range s.hmms.length).filter (fun i => marker s i = (frame_idx : Int))

/-- The function `state_align_search_step`. -/
def state_align_search_step (c : Collab) (junk : Hist) (s : SAS) (frame_idx : Nat) : SAS :=
  let senscr := c.acmod_score frame_idx
  let s1 := if s.best_score - 0x300000 < WORST_SCORE then renormalize_hmms s s.best_score else s
  let e := evaluate_hmms c s1 senscr frame_idx
  let s2 : SAS := { e.1 with best_score := e.2 }
  let s3 := prune_hmms s2 frame_idx
  let s4 := phone_transition s3 frame_idx
  let s5 := record_transitions junk s4 frame_idx
  { s5 with frame := frame_idx }

/-! ## `state_align_search_init` -/

/-- The loop of `state_align_search_init` over the phone-level entries, from
index `i` on, writing into the zero-initialised arrays. -/
def init_loop (nstate : Nat) : Nat → List Entry → SAS → SAS
  | _, [], s => s
  | i, ent :: rest, s =>
    if i < s.hmms.length then
      init_loop nstate (i + 1) rest
        { s with
          hmms := s.hmms.set i (hmm_init nstate ent.ssid ent.tmatid)
          sf := s.sf.set i (if ent.start > 0 then ent.start else 0)
          ef := s.ef.set i (if ent.duration > 0 then ent.start + ent.duration else INT_MAX) }
    else s

/-- The all-zero `hmm_t` left by `ckd_calloc`. -/
def zero_hmm : Hmm :=
  { score := [], history := [], out_score := 0, out_history := 0, ssid := 0, tmatid := 0,
    frame := 0 }

/-- The function `state_align_search_init`.  `nstate` is the number of emitting
states per phone of the model (`bin_mdef_n_emit_state`); `ctx_ok` tells whether
`hmm_context_init` succeeded; `none` is the `NULL` return. -/
def state_align_search_init (nstate : Nat) (ctx_ok : Bool) (al : Alignment) : Option SAS :=
  if ctx_ok then
    let n_phones := al.sseq.length
    some (init_loop nstate 0 al.sseq
      { al := some al
        hmms := List.replicate n_phones zero_hmm
        sf := List.replicate n_phones 0
        ef := List.replicate n_phones 0
        frame := 0
        best_score := 0
        tokens := []
        n_emit_state := al.state.length
        n_fr_alloc := 0
        ctx_n_emit_state := nstate
        hyp_str := none })
  else none

/-- A run of the search: `start`, then `step` for the frames `0, 1, ..., n - 1`
in order. -/
def run (c : Collab) (junk : Hist) (s0 : SAS) : Nat → SAS
  | 0 => state_align_search_start s0
  | n + 1 => state_align_search_step c junk (run c junk s0 n) n


/-! ## Reporters -/

/-- Modelled from the spec: an iterator over one level of the alignment
(`ps_alignment_iter_t`), positioned on `cur` with the entries `rest` after it. -/
structure AlignIter where
  cur : Entry
  rest : List Entry
deriving DecidableEq, Repr

/-- Modelled from the spec: `ps_alignment_words` gives an iterator on the first
word-level entry, or `NULL` when there is none. -/
def ps_alignment_words (al : Alignment) : Option AlignIter :=
  match al.word with
  | [] => none
  | e :: es => some { cur := e, rest := es }

/-- Modelled from the spec: `ps_alignment_iter_next` moves to the next entry of
the level, or gives `NULL` after the last one. -/
def ps_alignment_iter_next (itor : AlignIter) : Option AlignIter :=
  match itor.rest with
  | [] => none
  | e :: es => some { cur := e, rest := es }

/-- Modelled from the spec: `ps_alignment_iter_get` gives the current entry. -/
def ps_alignment_iter_get (itor : AlignIter) : Entry := itor.cur

/-- The record `state_align_seg_t`: the reported fields of `ps_seg_t` and the
alignment iterator. -/
structure Seg where
  sf : Int
  ef : Int
  ascr : Int
  lscr : Int
  text : Option CStr
  wid : Int
  itor : AlignIter
deriving DecidableEq, Repr

/-- The function `state_align_search_fill_iter`. -/
def state_align_search_fill_iter (d : Dict) (seg : Seg) : Seg :=
  let entry := ps_alignment_iter_get seg.itor
  { seg with
    sf := entry.start
    ef := entry.start + entry.duration - 1
    ascr := entry.score
    lscr := 0
    text := d.wordstr entry.wid
    wid := entry.wid }

/-- The function `state_align_search_seg_next`; `none` is the `NULL` return. -/
def state_align_search_seg_next (d : Dict) (seg : Seg) : Option Seg :=
  match ps_alignment_iter_next seg.itor with
  | none => none
  | some itor => some (state_align_search_fill_iter d { seg with itor := itor })

/-- The function `state_align_search_seg_iter`; `none` is the `NULL` return. -/
def state_align_search_seg_iter (d : Dict) (s : SAS) : Option Seg :=
  match s.al with
  | none => none
  | some al =>
    match ps_alignment_words al with
    | none => none
    | some itor =>
      some (state_align_search_fill_iter d
        { sf := 0, ef := 0, ascr := 0, lscr := 0, text := none, wid := 0, itor := itor })

/-- The first loop of `state_align_search_hyp` over the word-level entries:
the accumulated `hyp_len`, or `none` when a real word has no base string (the
function then returns `NULL`). -/
def hyp_len_loop (d : Dict) : List Entry → Nat → Option Nat
  | [], hyp_len => some hyp_len
  | ent :: rest, hyp_len =>
    if d.real_word ent.wid then
      match d.basestr ent.wid with
      | none => none
      | some word => hyp_len_loop d rest (hyp_len + (word.length + 1))
    else hyp_len_loop d rest hyp_len

/-- The call `strcat(dst, src)` into a buffer of `cap` bytes; `none` when the
result with its NUL does not fit. -/
def strcat (cap : Nat) (dst src : CStr) : Option CStr :=
  if dst.length + src.length + 1 ≤ cap then some (dst ++ src) else none

/-- The second loop of `state_align_search_hyp`: the buffer contents and the
value of `*out_score`; `none` is a fault (`strcat` of `NULL` or past the
buffer). -/
def hyp_fill_loop (d : Dict) (cap : Nat) : List Entry → CStr → Int → Option (CStr × Int)
  | [], hyp_str, out_score => some (hyp_str, out_score)
  | ent :: rest, hyp_str, _ =>
    if d.real_word ent.wid then
      match d.basestr ent.wid with
      | none => none
      | some word =>
        match strcat cap hyp_str word with
        | none => none
        | some s1 =>
          match strcat cap s1 [' '] with
          | none => none
          | some s2 => hyp_fill_loop d cap rest s2 ent.score
    else hyp_fill_loop d cap rest hyp_str ent.score

/-- The function `state_align_search_hyp`: the returned string (`none` for
`NULL`), the search object and the value left in `*out_score`.  The outer
`none` is a fault: with an empty buffer the final store goes to index
`strlen - 1` of an empty string. -/
def state_align_search_hyp (d : Dict) (s : SAS) (out_score : Int) :
    Option (Option CStr × SAS × Int) :=
  let s0 : SAS := { s with hyp_str := none }
  match s.al with
  | none => some (none, s0, out_score)
  | some al =>
    match ps_alignment_words al with
    | none => some (none, s0, out_score)
    | some _ =>
      match hyp_len_loop d al.word 0 with
      | none => some (none, s0, out_score)
      | some hyp_len =>
        match hyp_fill_loop d (hyp_len + 1) al.word [] out_score with
        | none => none
        | some r =>
          if r.1.length = 0 then none
          else
            let str := r.1.take (r.1.length - 1)
            some (some str, { s with hyp_str := some str }, r.2)

/-! ## Auxiliary predicates of the statements -/

/-- The segments `ws` (in the order written, latest first) tile the frames from
`bot` up to `top`: each ends where the one written before it starts, the first
ends at `top`, the last starts at `bot`, and each lasts at least one frame. -/
def Tiled (top : Int) : List (Nat × Entry) → Int → Prop
  | [], bot => top = bot
  | e :: es, bot => e.2.start + e.2.duration = top ∧ 1 ≤ e.2.duration ∧ Tiled e.2.start es bot

/-- The backtrace over the frames `k - 1, ..., 0`, started from backpointer
`id`, reads inside the token array and meets only backpointers below `nstate`. -/
def walk_in_range (tokens : List Hist) (n_emit_state : Nat) (nstate : Nat) : Nat → Nat → Bool
  | 0, _ => true
  | k + 1, id =>
    match tokens[k * n_emit_state + id]? with
    | none => false
    | some cur => decide (cur.id < nstate) && walk_in_range tokens n_emit_state nstate k cur.id

/-! ## Concrete inputs -/

/-- An alignment entry with empty timing and score fields. -/
def zero_entry : Entry :=
  { start := 0, duration := 0, score := 0, wid := 0, ssid := 0, tmatid := 0, parent := 0 }

/-- The candidate `(score, backpointer)` offered by local state `j` of a toy
HMM: its old score plus its observation score, if it has been reached. -/
def cand (senscr : List Int) (h : Hmm) (j : Nat) : Int × Int :=
  (if h.score.getD j WORST_SCORE > WORST_SCORE then
      h.score.getD j WORST_SCORE + senscr.getD j 0
    else WORST_SCORE,
   h.history.getD j (-1))

/-- The better of two candidates, the first one winning ties. -/
def better (a b : Int × Int) : Int × Int := if b.1 > a.1 then b else a

/-- A toy Viterbi update for a three-state left-to-right HMM with a skip
transition `0 → 2`, all transition scores being zero. -/
def skip_vit (senscr : List Int) (h : Hmm) : VitOut :=
  let c0 := cand senscr h 0
  let c1 := cand senscr h 1
  let c2 := cand senscr h 2
  let n1 := better c1 c0
  let n2 := better (better c2 c1) c0
  { score := [c0.1, n1.1, n2.1]
    history := [c0.2, n1.2, n2.2]
    out_score := if c2.1 > WORST_SCORE then c2.1 else h.out_score
    out_history := if c2.1 > WORST_SCORE then c2.2 else h.out_history
    best := max c0.1 (max n1.1 n2.1) }

/-- Collaborators for the toy HMM: the middle state always scores badly. -/
def skip_collab : Collab := { acmod_score := fun _ => [-1, -100, -1], vit := skip_vit }

/-- One word, one phone, three states, no timing hints. -/
def skip_al : Alignment :=
  { word := [zero_entry], sseq := [zero_entry]
    state := [zero_entry, zero_entry, zero_entry], propagations := 0 }

/-- The search after `init`, `start` and the steps for frames 0 and 1 on
`skip_al` with the toy HMM. -/
def skip_run : Option SAS :=
  (state_align_search_init 3 true skip_al).map (fun s => run skip_collab invalid_hist s 2)

/-- The `(start, duration)` pairs of the state-level entries. -/
def state_spans (s : SAS) : Option (List (Int × Int)) :=
  s.al.map (fun al => al.state.map (fun e => (e.start, e.duration)))

/-- The start of the forced window computed by `state_align_search_init` from
a phone-level entry. -/
def window_start (ent : Entry) : Int := if ent.start > 0 then ent.start else 0

/-- The end of the forced window computed by `state_align_search_init` from a
phone-level entry. -/
def window_end (ent : Entry) : Int :=
  if ent.duration > 0 then ent.start + ent.duration else INT_MAX

/-- Collaborators whose Viterbi update leaves every score and backpointer as
it is. -/
def plain_collab : Collab :=
  { acmod_score := fun _ => []
    vit := fun _ h =>
      { score := h.score, history := h.history, out_score := h.out_score,
        out_history := h.out_history, best := 0 } }

/-- Two phones; only the second carries a timing hint, `(start, duration) =
(2, 1)`, so its window is `start_frame = 2`, `end_frame = 3`. -/
def late_al : Alignment :=
  { word := [zero_entry]
    sseq := [zero_entry, { zero_entry with start := 2, duration := 1 }]
    state := [zero_entry, { zero_entry with parent := 1 }]
    propagations := 0 }

/-- One phone whose hint has a start but no duration: `(start, duration) =
(5, 0)`. -/
def hint_al : Alignment :=
  { word := [zero_entry]
    sseq := [{ zero_entry with start := 5, duration := 0 }]
    state := [zero_entry]
    propagations := 0 }

/-- A search object with nothing in it. -/
def empty_search : SAS :=
  { al := none, hmms := [], sf := [], ef := [], frame := 0, best_score := 0, tokens := [],
    n_emit_state := 0, n_fr_alloc := 0, ctx_n_emit_state := 0, hyp_str := none }

/-- The search object built by a successful `state_align_search_init`. -/
def initial_search (nstate : Nat) (al : Alignment) : SAS :=
  (state_align_search_init nstate true al).getD empty_search

/-- The base strings of the real words among the word-level entries `ws`, in
alignment order: the words the hypothesis is made of. -/
def real_base_strings (d : Dict) (ws : List Entry) : List CStr :=
  (ws.filter (fun e => d.real_word e.wid)).filterMap (fun e => d.basestr e.wid)

/-- Every word followed by one space, concatenated. -/
def spaced : List CStr → CStr
  | [] => []
  | w :: ws => w ++ ' ' :: spaced ws

/-- A dictionary with two real words (ids 1 and 2, base strings `go` and `on`)
and one auxiliary unit (id 3). -/
def toy_dict : Dict :=
  { real_word := fun w => decide (w = 1 ∨ w = 2)
    basestr := fun w => if w = 1 then some ['g', 'o'] else if w = 2 then some ['o', 'n'] else none
    wordstr := fun w =>
      if w = 1 then some ['g', 'o'] else if w = 2 then some ['o', 'n']
      else if w = 3 then some ['<', 's', 'i', 'l', '>'] else none }

/-- A real word with score 5 followed by an auxiliary unit with score 7; one
phone with one state under the first word. -/
def trailing_aux_al : Alignment :=
  { word := [{ zero_entry with wid := 1, score := 5 }, { zero_entry with wid := 3, score := 7 }]
    sseq := [zero_entry]
    state := [zero_entry]
    propagations := 0 }

/-- A search on `trailing_aux_al` right after `init` and `start`: no frame has
been processed and `finish` has not been called. -/
def unfinished_search : SAS :=
  run plain_collab invalid_hist (initial_search 1 trailing_aux_al) 0

/-- A search object holding `trailing_aux_al` and nothing else. -/
def reported_search : SAS := { empty_search with al := some trailing_aux_al }

/-- One phone with two states; the token history of three frames (0, 1, 2) in
which the path stays in state 0 for frames 0 and 1 and is in state 1 from
frame 2; the final phone exits from slot 1 with score -40. -/
def two_state_search : SAS :=
  { al := some { word := [zero_entry], sseq := [zero_entry]
                 state := [zero_entry, zero_entry], propagations := 0 }
    hmms := [{ score := [-30, -35], history := [0, 1], out_score := -40, out_history := 1,
               ssid := 0, tmatid := 0, frame := 3 }]
    sf := [0]
    ef := [INT_MAX]
    frame := 2
    best_score := -30
    tokens := [⟨0, -10⟩, ⟨0xffff, -1⟩, ⟨0, -20⟩, ⟨0, -25⟩, ⟨0, -30⟩, ⟨1, -35⟩]
    n_emit_state := 2
    n_fr_alloc := 3
    ctx_n_emit_state := 2
    hyp_str := none }

/-- The search object left by `state_align_search_finish` (the argument itself
when it faults). -/
def finished (s : SAS) : SAS :=
  match state_align_search_finish s with
  | some r => r.2
  | none => s

/-! ## The segment sequence -/

/-- The segments obtained by starting from the result of
`state_align_search_seg_iter` and calling `state_align_search_seg_next` until
it returns `NULL`; at most `fuel` segments are taken. -/
def seg_collect (d : Dict) : Nat → Option Seg → List Seg
  | 0, _ => []
  | _ + 1, none => []
  | fuel + 1, some seg => seg :: seg_collect d fuel (state_align_search_seg_next d seg)

/-- The segment a word-level entry is reported as, with the iterator standing
on it: what `state_align_search_fill_iter` leaves in every field. -/
def seg_at (d : Dict) (cur : Entry) (rest : List Entry) : Seg :=
  { sf := cur.start
    ef := cur.start + cur.duration - 1
    ascr := cur.score
    lscr := 0
    text := d.wordstr cur.wid
    wid := cur.wid
    itor := { cur := cur, rest := rest } }

/-- One segment per entry of a list of word-level entries, in order. -/
def segs_from (d : Dict) : List Entry → List Seg
  | [] => []
  | e :: rest => seg_at d e rest :: segs_from d rest

/-- The reported fields of a segment: word id, start frame, end frame,
acoustic score, language score. -/
def Seg.report (g : Seg) : Int × Int × Int × Int × Int := (g.wid, g.sf, g.ef, g.ascr, g.lscr)

/-- The fields a word-level entry is to be reported with. -/
def Entry.report (e : Entry) : Int × Int × Int × Int × Int :=
  (e.wid, e.start, e.start + e.duration - 1, e.score, 0)

/-- Two word-level entries, the first over frames 0 to 3, the second over
frames 4 to 9. -/
def two_word_al : Alignment :=
  { word := [{ zero_entry with wid := 1, start := 0, duration := 4, score := -12 },
             { zero_entry with wid := 2, start := 4, duration := 6, score := -30 }]
    sseq := []
    state := []
    propagations := 1 }

/-- A search object holding `two_word_al`. -/
def two_word_search : SAS := { empty_search with al := some two_word_al }

/-- A dictionary in which every id is a real word but only id 1 has a base
string (`go`). -/
def gappy_dict : Dict :=
  { real_word := fun _ => true
    basestr := fun w => if w = 1 then some ['g', 'o'] else none
    wordstr := fun w => if w = 1 then some ['g', 'o'] else none }

/-- The timing of an entry and its parent link: what the boundaries written by
the backtrace and by the upward propagation are made of. -/
def Entry.timing (e : Entry) : Int × Int × Nat := (e.start, e.duration, e.parent)

/-- The `(start, duration)` pair of an entry. -/
def Entry.span (e : Entry) : Int × Int := (e.start, e.duration)

/-- The `(start, duration)` pairs of every entry of the alignment, level by
level: words, phones, states. -/
def all_spans (s : SAS) : Option (List (Int × Int) × List (Int × Int) × List (Int × Int)) :=
  s.al.map (fun al => (al.word.map Entry.span, al.sseq.map Entry.span, al.state.map Entry.span))

/-- The search `two_state_search` with other scores in the token history and
at the exit of the final phone; the origin ids are the same. -/
def two_state_rescored : SAS :=
  { two_state_search with
    hmms := [{ score := [-3000, -3500], history := [0, 1], out_score := -4100, out_history := 1,
               ssid := 0, tmatid := 0, frame := 3 }]
    tokens := [⟨0, -1000⟩, ⟨0xffff, 77⟩, ⟨0, -2000⟩, ⟨0, -2600⟩, ⟨0, -3000⟩, ⟨1, -3500⟩] }

/-- Two states of the backtrace agree on everything the boundaries depend on:
the current and last backpointer ids, the end of the open segment, and the
timing of every state-level entry. -/
def WalkAgree (w1 w2 : Walk) : Prop :=
  w1.cur.id = w2.cur.id ∧ w1.last.id = w2.last.id ∧ w1.last_frame = w2.last_frame ∧
    w1.state.map Entry.timing = w2.state.map Entry.timing

/-- Two outcomes of a part of the backtrace agree: both fault, or both continue
from agreeing states. -/
def OptAgree : Option Walk → Option Walk → Prop
  | none, none => True
  | some w1, some w2 => WalkAgree w1 w2
  | _, _ => False

/-- The instances `evaluate_hmms` applies `hmm_vit_eval` to at frame
`frame_idx`: those its loop does not skip, whose marker is not below
`frame_idx`. -/
def step_evaluated (s : SAS) (frame_idx : Nat) : List Nat :=
  (List.range s.hmms.length).filter (fun i => ¬ (marker s i < (frame_idx : Int)))

/-- An instance marked for frame 1 that exits with score -5 from slot 0. -/
def cascade_first : Hmm :=
  { score := [-4]
    history := [0]
    out_score := -5
    out_history := 0
    ssid := 0
    tmatid := 0
    frame := 1 }

/-- An inactive instance that still carries an old exit score -7 and exit
backpointer 1. -/
def cascade_second : Hmm :=
  { score := [WORST_SCORE]
    history := [-1]
    out_score := -7
    out_history := 1
    ssid := 0
    tmatid := 0
    frame := -1 }

/-- An inactive instance that was never reached. -/
def cascade_third : Hmm :=
  { score := [WORST_SCORE]
    history := [-1]
    out_score := WORST_SCORE
    out_history := -1
    ssid := 0
    tmatid := 0
    frame := -1 }

/-- Three one-state phones at frame 0: the first is marked for frame 1, the
other two are inactive. No timing hints. -/
def cascade_search : SAS :=
  { empty_search with
    hmms := [cascade_first, cascade_second, cascade_third]
    sf := [0, 0, 0]
    ef := [INT_MAX, INT_MAX, INT_MAX]
    n_emit_state := 3
    ctx_n_emit_state := 1 }

/-! ## The backpointer chain of a token history -/

/-- The origin ids found by following the backpointers through the token
history over the frames `k - 1, ..., 0`, starting from slot `id` of frame
`k - 1`; `none` when a slot lies outside the token array. It reads the token
history only. -/
def chain_ids (tokens : List Hist) (n_emit_state : Nat) : Nat → Nat → Option (List Nat)
  | 0, _ => some []
  | k + 1, id =>
    match tokens[k * n_emit_state + id]? with
    | none => none
    | some cur => (chain_ids tokens n_emit_state k cur.id).map (fun l => cur.id :: l)

/-- The backpointer chain of a search object: the exit backpointer of the final
phone followed by the origin ids met from the last processed frame back to
frame 0. -/
def backpointer_chain (s : SAS) : Option (List Nat) :=
  match final_exit s with
  | none => none
  | some last =>
    (chain_ids s.tokens s.n_emit_state s.frame last.id).map (fun l => last.id :: l)

/-- A chain of ids with every run of equal consecutive ids collapsed to one:
the states the chain passes through, latest first. -/
def collapse : List Nat → List Nat
  | [] => []
  | [a] => [a]
  | a :: b :: r => if a = b then collapse (b :: r) else a :: collapse (b :: r)

/-- The ids of a chain at which the next id differs: every run of the chain but
the last one. -/
def closed_ids : List Nat → List Nat
  | [] => []
  | [_] => []
  | a :: b :: r => if a = b then closed_ids (b :: r) else a :: closed_ids (b :: r)

/-! # Theorems -/

/-! ## The backtrace -/

theorem tiled_snoc (top : Int) (ws : List (Nat × Entry)) (bot : Int) (e : Nat × Entry)
    (h : Tiled top ws bot) (he : e.2.start + e.2.duration = bot) (hd : 1 ≤ e.2.duration) :
    Tiled top (ws ++ [e]) e.2.start := by
  induction ws generalizing top with
  | nil =>
    simp only [Tiled] at h
    simp only [List.nil_append, Tiled]
    exact ⟨by omega, hd, trivial⟩
  | cons a as ih =>
    simp only [Tiled] at h
    simp only [List.cons_append, Tiled]
    exact ⟨h.1, h.2.1, ih _ h.2.2⟩

theorem tiled_head (top bot : Int) (e : Nat × Entry) (es : List (Nat × Entry))
    (h : Tiled top (e :: es) bot) : e.2.start + e.2.duration = top := h.1

theorem tiled_duration (top bot : Int) (ws : List (Nat × Entry)) (h : Tiled top ws bot) :
    ∀ e ∈ ws, 1 ≤ e.2.duration := by
  induction ws generalizing top with
  | nil => intro e he; cases he
  | cons a as ih =>
    intro e he
    rcases List.mem_cons.mp he with rfl | he1
    · exact h.2.1
    · exact ih _ h.2.2 e he1

theorem tiled_adjacent (top bot : Int) (ws : List (Nat × Entry)) (h : Tiled top ws bot) :
    ∀ k (hk : k + 1 < ws.length),
      (ws.get ⟨k + 1, hk⟩).2.start + (ws.get ⟨k + 1, hk⟩).2.duration
        = (ws.get ⟨k, Nat.lt_of_succ_lt hk⟩).2.start := by
  induction ws generalizing top with
  | nil => intro k hk; simp at hk
  | cons a as ih =>
    intro k hk
    cases k with
    | zero =>
      cases as with
      | nil => simp at hk
      | cons b bs => simpa using h.2.2.1
    | succ k =>
      have hk1 : k + 1 < as.length := by simpa using hk
      simpa using ih _ h.2.2 k hk1

/-- The invariant of the backtrace loop with `k` frames left to visit. -/
theorem backtrace_frame_inv (tokens : List Hist) (n : Nat) (top : Int) (k : Nat) (w w1 : Walk)
    (h : backtrace_frame tokens n k w = some w1)
    (ht : Tiled top w.written w.last_frame) (hk : (k : Int) + 2 ≤ w.last_frame) :
    Tiled top w1.written w1.last_frame ∧ (k : Int) + 1 ≤ w1.last_frame := by
  unfold backtrace_frame at h
  split at h
  · cases h
  · rename_i cur hcur
    split at h
    · split at h
      · cases h
      · rename_i ent hent
        cases h
        refine ⟨?_, by simp⟩
        have := tiled_snoc top w.written w.last_frame
          (w.last.id, { ent with start := (k : Int) + 1
                                 duration := w.last_frame - ((k : Int) + 1)
                                 score := w.last.score - cur.score }) ht
          (by simp) (by simp; omega)
        simpa using this
    · cases h
      exact ⟨ht, by simp; omega⟩

theorem backtrace_loop_inv (tokens : List Hist) (n : Nat) (top : Int) :
    ∀ (k : Nat) (w w1 : Walk), backtrace_loop tokens n k w = some w1 →
      Tiled top w.written w.last_frame → (k : Int) + 1 ≤ w.last_frame →
      Tiled top w1.written w1.last_frame ∧ 1 ≤ w1.last_frame := by
  intro k
  induction k with
  | zero =>
    intro w w1 h ht hk
    simp only [backtrace_loop] at h
    cases h
    exact ⟨ht, by simpa using hk⟩
  | succ k ih =>
    intro w w1 h ht hk
    simp only [backtrace_loop] at h
    split at h
    · cases h
    · rename_i w2 hw2
      have := backtrace_frame_inv tokens n top k w w2 hw2 ht (by push_cast at hk; omega)
      exact ih w2 w1 h this.1 this.2

/-- The state-level entries after the walk are the initial ones with the logged
writes applied in order. -/
theorem backtrace_frame_log (tokens : List Hist) (n k : Nat) (st0 : List Entry) (w w1 : Walk)
    (h : backtrace_frame tokens n k w = some w1)
    (hs : w.state = w.written.foldl (fun st p => st.set p.1 p.2) st0) :
    w1.state = w1.written.foldl (fun st p => st.set p.1 p.2) st0 := by
  unfold backtrace_frame at h
  split at h
  · cases h
  · split at h
    · split at h
      · cases h
      · cases h
        simp [List.foldl_append, ← hs]
    · cases h
      exact hs

theorem backtrace_loop_log (tokens : List Hist) (n : Nat) (st0 : List Entry) :
    ∀ (k : Nat) (w w1 : Walk), backtrace_loop tokens n k w = some w1 →
      w.state = w.written.foldl (fun st p => st.set p.1 p.2) st0 →
      w1.state = w1.written.foldl (fun st p => st.set p.1 p.2) st0 := by
  intro k
  induction k with
  | zero => intro w w1 h hs; simp only [backtrace_loop] at h; cases h; exact hs
  | succ k ih =>
    intro w w1 h hs
    simp only [backtrace_loop] at h
    split at h
    · cases h
    · rename_i w2 hw2
      exact ih w2 w1 h (backtrace_frame_log tokens n k st0 w w2 hw2 hs)

theorem finish_walk_log (s : SAS) (al : Alignment) (last : Hist) (w : Walk)
    (hw : finish_walk s al last = some w) :
    w.state = w.written.foldl (fun st p => st.set p.1 p.2) al.state := by
  unfold finish_walk at hw
  split at hw
  · cases hw
  · rename_i w0 hw0
    have h0 := backtrace_loop_log s.tokens s.n_emit_state al.state s.frame _ w0 hw0 rfl
    unfold backtrace_close at hw
    split at hw
    · cases hw
    · cases hw
      simp [List.foldl_append, ← h0]

theorem finish_success_inv (s t : SAS) (h : state_align_search_finish s = some (0, t)) :
    ∃ last al w, final_exit s = some last ∧ last.id ≠ 0xffff ∧ s.al = some al ∧
      finish_walk s al last = some w ∧
      t = { s with al := some (ps_alignment_propagate { al with state := w.state }) } := by
  unfold state_align_search_finish at h
  split at h
  · cases h
  · rename_i last hlast
    split at h
    · simp at h
    · rename_i hid
      split at h
      · cases h
      · rename_i al hal
        split at h
        · cases h
        · rename_i w hw
          simp only [Option.some.injEq, Prod.mk.injEq, true_and] at h
          exact ⟨last, al, w, hlast, hid, hal, hw, h.symm⟩

theorem finish_writes_of_walk (s : SAS) (last : Hist) (al : Alignment) (w : Walk)
    (hl : final_exit s = some last) (hid : last.id ≠ 0xffff) (hal : s.al = some al)
    (hw : finish_walk s al last = some w) : finish_writes s = some w.written := by
  unfold finish_writes
  simp [hl, hid, hal, hw]

theorem finish_walk_tiled (s : SAS) (al : Alignment) (last : Hist) (w : Walk)
    (hw : finish_walk s al last = some w) :
    ∃ ws ent, w.written = ws ++ [(0, ent)] ∧ ent.start = 0 ∧
      Tiled ((s.frame : Int) + 1) w.written 0 := by
  unfold finish_walk at hw
  split at hw
  · cases hw
  · rename_i w0 hw0
    have hinv := backtrace_loop_inv s.tokens s.n_emit_state ((s.frame : Int) + 1) s.frame _ w0 hw0
      (by simp [Tiled]) (by simp)
    unfold backtrace_close at hw
    split at hw
    · cases hw
    · rename_i ent hent
      cases hw
      refine ⟨w0.written, { ent with start := 0, duration := w0.last_frame }, rfl, rfl, ?_⟩
      have := tiled_snoc _ w0.written w0.last_frame
        (0, { ent with start := 0, duration := w0.last_frame }) hinv.1 (by simp) (by simpa using hinv.2)
      simpa using this

/-- C2 (backtrace tiling). Whenever `state_align_search_finish` succeeds with
last processed frame `F = s.frame`, the entries it writes, in the order written,
partition the frames `[0, F + 1)`: the first one written ends at frame `F`, each
later one ends where the one written just before it starts, every written
duration is at least 1, and the last one written is the entry of the initial
state (position 0) with start 0. The state-level entries after the call are the
previous ones with these writes applied in order. -/
theorem finish_writes_partition (s t : SAS)
    (h : state_align_search_finish s = some (0, t)) :
    ∃ ws : List (Nat × Entry), finish_writes s = some ws ∧
      (∃ al, s.al = some al ∧
        t.al.map Alignment.state = some (ws.foldl (fun st p => st.set p.1 p.2) al.state)) ∧
      (∃ e, ws.head? = some e ∧ e.2.start + e.2.duration - 1 = (s.frame : Int)) ∧
      (∀ k (hk : k + 1 < ws.length),
        (ws.get ⟨k + 1, hk⟩).2.start + (ws.get ⟨k + 1, hk⟩).2.duration
          = (ws.get ⟨k, Nat.lt_of_succ_lt hk⟩).2.start) ∧
      (∀ e ∈ ws, 1 ≤ e.2.duration) ∧
      (∃ e, ws.getLast? = some e ∧ e.1 = 0 ∧ e.2.start = 0) := by
  obtain ⟨last, al, w, hl, hid, hal, hw, ht⟩ := finish_success_inv s t h
  obtain ⟨ws0, ent, hws, hstart, htiled⟩ := finish_walk_tiled s al last w hw
  refine ⟨w.written, finish_writes_of_walk s last al w hl hid hal hw, ?_, ?_, ?_, ?_, ?_⟩
  · refine ⟨al, hal, ?_⟩
    rw [ht, ← finish_walk_log s al last w hw]
    rfl
  · cases hwr : w.written with
    | nil => rw [hwr] at hws; simp at hws
    | cons e es =>
      rw [hwr] at htiled
      exact ⟨e, rfl, by have := htiled.1; omega⟩
  · exact tiled_adjacent _ _ _ htiled
  · exact tiled_duration _ _ _ htiled
  · exact ⟨(0, ent), by rw [hws]; simp, rfl, hstart⟩

theorem backtrace_frame_total (tokens : List Hist) (n nstate k : Nat) (w : Walk)
    (hlen : w.state.length = nstate) (hlast : w.last.id < nstate)
    (hr : walk_in_range tokens n nstate (k + 1) w.cur.id = true) :
    ∃ w1, backtrace_frame tokens n k w = some w1 ∧ w1.state.length = nstate ∧
      w1.last.id < nstate ∧ walk_in_range tokens n nstate k w1.cur.id = true := by
  unfold walk_in_range at hr
  unfold backtrace_frame
  split at hr
  · cases hr
  · rename_i cur hcur
    simp only [Bool.and_eq_true, decide_eq_true_eq] at hr
    by_cases hne : cur.id ≠ w.last.id
    · have hlt : w.last.id < w.state.length := by omega
      rw [if_pos hne, List.getElem?_eq_getElem hlt]
      exact ⟨_, rfl, by simp [hlen], hr.1, hr.2⟩
    · rw [if_neg hne]
      exact ⟨_, rfl, hlen, hlast, hr.2⟩

theorem backtrace_loop_total (tokens : List Hist) (n nstate : Nat) :
    ∀ (k : Nat) (w : Walk), w.state.length = nstate → w.last.id < nstate →
      walk_in_range tokens n nstate k w.cur.id = true →
      ∃ w1, backtrace_loop tokens n k w = some w1 ∧ w1.state.length = nstate := by
  intro k
  induction k with
  | zero => intro w hlen _ _; exact ⟨w, rfl, hlen⟩
  | succ k ih =>
    intro w hlen hlast hr
    obtain ⟨w1, h1, hlen1, hlast1, hr1⟩ := backtrace_frame_total tokens n nstate k w hlen hlast hr
    obtain ⟨w2, h2, hlen2⟩ := ih w1 hlen1 hlast1 hr1
    exact ⟨w2, by simp only [backtrace_loop, h1, h2], hlen2⟩

theorem finish_walk_total (s : SAS) (al : Alignment) (last : Hist)
    (hlast : last.id < al.state.length)
    (hr : walk_in_range s.tokens s.n_emit_state al.state.length s.frame last.id = true) :
    ∃ w, finish_walk s al last = some w := by
  obtain ⟨w1, h1, hlen1⟩ := backtrace_loop_total s.tokens s.n_emit_state al.state.length s.frame
    { cur := last, last := last, last_frame := (s.frame : Int) + 1, state := al.state, written := [] }
    rfl hlast hr
  have h0 : 0 < w1.state.length := by omega
  unfold finish_walk
  rw [h1]
  simp only [backtrace_close, List.getElem?_eq_getElem h0]
  exact ⟨_, rfl⟩

/-- C3 (alignment not reached). With `last` the exit record of the final phone
(its exit backpointer read as a 16-bit token id), `state_align_search_finish`
returns `-1` exactly when that backpointer is the sentinel `0xffff`; it then
returns the search object unchanged, so no alignment entry is overwritten and
no upward propagation is requested. Otherwise every return is `0`, and it does
return `0` whenever the walk stays inside the token array and meets only
backpointers that index a state-level entry (so that no `assert` fails). -/
theorem finish_fails_iff_invalid (s : SAS) (last : Hist) (hl : final_exit s = some last) :
    ((∃ t, state_align_search_finish s = some (-1, t)) ↔ last.id = 0xffff) ∧
    (last.id = 0xffff → state_align_search_finish s = some (-1, s)) ∧
    (last.id ≠ 0xffff → ∀ r, state_align_search_finish s = some r → r.1 = 0) ∧
    (last.id ≠ 0xffff → ∀ al, s.al = some al → last.id < al.state.length →
      walk_in_range s.tokens s.n_emit_state al.state.length s.frame last.id = true →
      ∃ t, state_align_search_finish s = some (0, t)) := by
  have hfail : last.id = 0xffff → state_align_search_finish s = some (-1, s) := by
    intro hid
    unfold state_align_search_finish
    simp [hl, hid]
  have hzero : last.id ≠ 0xffff → ∀ r, state_align_search_finish s = some r → r.1 = 0 := by
    intro hid r hr
    unfold state_align_search_finish at hr
    simp only [hl, hid, if_false] at hr
    split at hr
    · cases hr
    · split at hr
      · cases hr
      · cases hr; rfl
  refine ⟨⟨?_, fun hid => ⟨s, hfail hid⟩⟩, hfail, hzero, ?_⟩
  · rintro ⟨t, ht⟩
    by_contra hid
    have := hzero hid _ ht
    simp at this
  · intro hid al hal hlt hr
    obtain ⟨w, hw⟩ := finish_walk_total s al last hlt hr
    unfold state_align_search_finish
    simp only [hl, hid, if_false, hal, hw]
    exact ⟨_, rfl⟩

theorem foldl_set_length (ws : List (Nat × Entry)) (st : List Entry) :
    (ws.foldl (fun st p => st.set p.1 p.2) st).length = st.length := by
  induction ws generalizing st with
  | nil => rfl
  | cons p ps ih => simp [List.foldl_cons, ih]

theorem foldl_set_not_mem (ws : List (Nat × Entry)) (st : List Entry) (i : Nat)
    (hi : i ∉ ws.map Prod.fst) :
    (ws.foldl (fun st p => st.set p.1 p.2) st)[i]? = st[i]? := by
  induction ws generalizing st with
  | nil => rfl
  | cons p ps ih =>
    simp only [List.map_cons, List.mem_cons, not_or] at hi
    rw [List.foldl_cons, ih _ hi.2, List.getElem?_set_ne (Ne.symm hi.1)]

theorem foldl_set_mem (ws : List (Nat × Entry)) (st : List Entry) (i : Nat) (e : Entry)
    (hnd : (ws.map Prod.fst).Nodup) (hm : (i, e) ∈ ws) (hi : i < st.length) :
    (ws.foldl (fun st p => st.set p.1 p.2) st)[i]? = some e := by
  induction ws generalizing st with
  | nil => cases hm
  | cons p ps ih =>
    simp only [List.map_cons, List.nodup_cons] at hnd
    rw [List.foldl_cons]
    rcases List.mem_cons.mp hm with hp | hps
    · subst hp
      rw [foldl_set_not_mem _ _ _ hnd.1]
      simp [hi]
    · exact ih _ hnd.2 hps (by simpa using hi)

theorem ids_descending (ws : List (Nat × Entry)) (n : Nat)
    (hids : ws.map Prod.fst = (List.range n).reverse) :
    ws.length = n ∧ ∀ k (hk : k < ws.length), (ws.get ⟨k, hk⟩).1 = n - 1 - k := by
  have hlen : ws.length = n := by
    have := congrArg List.length hids
    simpa using this
  refine ⟨hlen, fun k hk => ?_⟩
  have h1 : (ws.map Prod.fst)[k]? = ((List.range n).reverse)[k]? := by rw [hids]
  rw [List.getElem?_map, List.getElem?_eq_getElem hk,
    List.getElem?_reverse (by simpa using hlen ▸ hk), List.length_range,
    List.getElem?_range (by omega)] at h1
  simpa using h1

theorem finish_walk_head (s : SAS) (al : Alignment) (last : Hist) (w : Walk)
    (hw : finish_walk s al last = some w) :
    ∃ e, w.state.head? = some e ∧ e.start = 0 := by
  unfold finish_walk at hw
  split at hw
  · cases hw
  · rename_i w0 hw0
    unfold backtrace_close at hw
    split at hw
    · cases hw
    · rename_i ent hent
      cases hw
      obtain ⟨h0, -⟩ := List.getElem?_eq_some.mp hent
      refine ⟨{ ent with start := 0, duration := w0.last_frame }, ?_, rfl⟩
      rw [List.head?_eq_getElem?]
      simp [h0]

theorem closed_ids_cons_ne (a b : Nat) (r : List Nat) (h : a ≠ b) :
    closed_ids (a :: b :: r) = a :: closed_ids (b :: r) := by
  simp [closed_ids, h]

theorem closed_ids_cons_eq (a b : Nat) (r : List Nat) (h : a = b) :
    closed_ids (a :: b :: r) = closed_ids (b :: r) := by
  simp [closed_ids, h]

theorem closed_ids_subset : ∀ (l : List Nat) (x : Nat), x ∈ closed_ids l → x ∈ l := by
  intro l
  induction l with
  | nil => intro x hx; simp [closed_ids] at hx
  | cons a l ih =>
    intro x hx
    cases l with
    | nil => simp [closed_ids] at hx
    | cons b r =>
      by_cases hab : a = b
      · rw [closed_ids_cons_eq a b r hab] at hx
        exact List.mem_cons_of_mem _ (ih x hx)
      · rw [closed_ids_cons_ne a b r hab] at hx
        rcases List.mem_cons.mp hx with rfl | hx1
        · exact List.mem_cons_self _ _
        · exact List.mem_cons_of_mem _ (ih x hx1)

/-- A collapsed chain is the ids at which the chain changes, followed by the id
of its last run. -/
theorem collapse_eq_closed : ∀ (l : List Nat), l ≠ [] →
    ∃ x, collapse l = closed_ids l ++ [x] := by
  intro l
  induction l with
  | nil => intro h; exact absurd rfl h
  | cons a l ih =>
    intro _
    cases l with
    | nil => exact ⟨a, by simp [collapse, closed_ids]⟩
    | cons b r =>
      obtain ⟨x, hx⟩ := ih (List.cons_ne_nil _ _)
      by_cases hab : a = b
      · exact ⟨x, by rw [closed_ids_cons_eq a b r hab]; simp only [collapse, if_pos hab]; exact hx⟩
      · refine ⟨x, ?_⟩
        rw [closed_ids_cons_ne a b r hab]
        simp only [collapse, if_neg hab, List.cons_append, List.cons.injEq, true_and]
        exact hx

/-- The segments closed inside the backtrace loop are those of the backpointer
chain: one for every run of the chain except the last. -/
theorem backtrace_loop_chain (tokens : List Hist) (n : Nat) :
    ∀ (k : Nat) (w w1 : Walk), w.cur.id = w.last.id →
      backtrace_loop tokens n k w = some w1 →
      ∃ ids, chain_ids tokens n k w.cur.id = some ids ∧
        w1.written.map Prod.fst = w.written.map Prod.fst ++ closed_ids (w.cur.id :: ids) := by
  intro k
  induction k with
  | zero =>
    intro w w1 _ h
    simp only [backtrace_loop] at h
    cases h
    exact ⟨[], rfl, by simp [closed_ids]⟩
  | succ k ih =>
    intro w w1 hcl h
    simp only [backtrace_loop] at h
    split at h
    · cases h
    · rename_i w2 hw2
      unfold backtrace_frame at hw2
      split at hw2
      · cases hw2
      · rename_i cur hcur
        split at hw2
        · rename_i hne
          split at hw2
          · cases hw2
          · rename_i ent hent
            cases hw2
            obtain ⟨ids, hids, hwr⟩ := ih _ w1 rfl h
            simp only at hids hwr
            refine ⟨cur.id :: ids, ?_, ?_⟩
            · simp only [chain_ids, hcur, hids, Option.map_some']
            · rw [hwr, closed_ids_cons_ne w.cur.id cur.id ids (by rw [hcl]; exact Ne.symm hne)]
              simp [hcl]
        · rename_i heq
          cases hw2
          obtain ⟨ids, hids, hwr⟩ := ih _ w1 (by simpa using heq) h
          simp only at hids hwr
          refine ⟨cur.id :: ids, ?_, ?_⟩
          · simp only [chain_ids, hcur, hids, Option.map_some']
          · rw [hwr, closed_ids_cons_eq w.cur.id cur.id ids (by rw [hcl]; exact (not_not.mp heq).symm)]

/-- The positions written by a successful backtrace, in the order written: the
ids at which the backpointer chain changes, then position 0. -/
theorem finish_walk_chain (s : SAS) (al : Alignment) (last : Hist) (w : Walk)
    (hw : finish_walk s al last = some w) :
    ∃ ids, chain_ids s.tokens s.n_emit_state s.frame last.id = some ids ∧
      w.written.map Prod.fst = closed_ids (last.id :: ids) ++ [0] := by
  unfold finish_walk at hw
  split at hw
  · cases hw
  · rename_i w0 hw0
    obtain ⟨ids, hids, hwr⟩ := backtrace_loop_chain s.tokens s.n_emit_state s.frame _ w0 rfl hw0
    simp only [List.map_nil, List.nil_append] at hids hwr
    unfold backtrace_close at hw
    split at hw
    · cases hw
    · cases hw
      exact ⟨ids, hids, by simp [hwr]⟩

theorem reverse_range_getLast? (n : Nat) (hn : 0 < n) :
    ((List.range n).reverse).getLast? = some 0 := by
  rw [List.getLast?_reverse, List.head?_range]
  simp [Nat.ne_of_gt hn]

/-- C1 (monotonic coverage, amended). Whenever `state_align_search_finish`
succeeds, the first state-level entry starts at frame 0, the positions it
writes are the ids at which the backpointer chain of the token history changes
followed by position 0, and every state-level entry other than entry 0 whose
id does not occur on that chain keeps its previous contents. If the chain,
with runs of equal ids collapsed, is `n - 1, ..., 1, 0` (it passes through
every state in order), then every pair of consecutive state-level entries
satisfies `entry[i].start + entry[i].duration = entry[i+1].start`. -/
theorem finish_entries_contiguous (s t : SAS) (al : Alignment) (hal : s.al = some al)
    (h : state_align_search_finish s = some (0, t)) :
    ∃ al1 chain, t.al = some al1 ∧ backpointer_chain s = some chain ∧
      al1.state.length = al.state.length ∧
      (∃ e, al1.state.head? = some e ∧ e.start = 0) ∧
      (finish_writes s).map (List.map Prod.fst) = some (closed_ids chain ++ [0]) ∧
      (∀ i, i ≠ 0 → i ∉ chain → al1.state[i]? = al.state[i]?) ∧
      (collapse chain = (List.range al.state.length).reverse →
        ∀ i (hi : i + 1 < al1.state.length),
          (al1.state.get ⟨i, Nat.lt_of_succ_lt hi⟩).start
              + (al1.state.get ⟨i, Nat.lt_of_succ_lt hi⟩).duration
            = (al1.state.get ⟨i + 1, hi⟩).start) := by
  obtain ⟨last, al0, w, hl, hid, hal0, hw, ht⟩ := finish_success_inv s t h
  have hal_eq : al0 = al := by rw [hal] at hal0; exact (Option.some.inj hal0).symm
  subst hal_eq
  have hlog := finish_walk_log s al0 last w hw
  have hlen : w.state.length = al0.state.length := by rw [hlog, foldl_set_length]
  obtain ⟨ids, hchain, hwritten⟩ := finish_walk_chain s al0 last w hw
  have hbc : backpointer_chain s = some (last.id :: ids) := by
    simp only [backpointer_chain, hl, hchain, Option.map_some']
  refine ⟨ps_alignment_propagate { al0 with state := w.state }, last.id :: ids,
    by rw [ht], hbc, hlen, finish_walk_head s al0 last w hw, ?_, ?_, ?_⟩
  · rw [finish_writes_of_walk s last al0 w hl hid hal hw]
    simp only [Option.map_some', hwritten]
  · intro i hi0 hic
    show w.state[i]? = al0.state[i]?
    rw [hlog]
    apply foldl_set_not_mem
    rw [hwritten]
    intro hmem
    rcases List.mem_append.mp hmem with hm | hm
    · exact hic (closed_ids_subset _ _ hm)
    · simp at hm
      exact hi0 hm
  intro hcol i hi
  have hi1 : i + 1 < al0.state.length := by
    have : i + 1 < w.state.length := hi
    omega
  have hids : w.written.map Prod.fst = (List.range al0.state.length).reverse := by
    obtain ⟨x, hx⟩ := collapse_eq_closed (last.id :: ids) (List.cons_ne_nil _ _)
    rw [hx] at hcol
    have hlast := congrArg List.getLast? hcol
    rw [reverse_range_getLast? _ (by omega)] at hlast
    have hx0 : x = 0 := by
      simpa [List.getLast?_append, Option.or] using hlast
    rw [hwritten, ← hcol, hx0]
  obtain ⟨hwl, hdesc⟩ := ids_descending w.written al0.state.length hids
  obtain ⟨_, _, _, _, htiled⟩ := finish_walk_tiled s al0 last w hw
  have hi1 : i + 1 < al0.state.length := by
    have : i + 1 < w.state.length := hi
    omega
  have hk1 : (al0.state.length - 2 - i) + 1 < w.written.length := by omega
  have hadj := tiled_adjacent _ _ _ htiled (al0.state.length - 2 - i) hk1
  have hnd : (w.written.map Prod.fst).Nodup := by
    rw [hids]; exact List.nodup_reverse.mpr (List.nodup_range _)
  have hA := hdesc (al0.state.length - 2 - i + 1) hk1
  have hB := hdesc (al0.state.length - 2 - i) (Nat.lt_of_succ_lt hk1)
  have hAi : (w.written.get ⟨al0.state.length - 2 - i + 1, hk1⟩).1 = i := by omega
  have hBi : (w.written.get ⟨al0.state.length - 2 - i, Nat.lt_of_succ_lt hk1⟩).1 = i + 1 := by
    omega
  have hgetA : w.state[i]? = some (w.written.get ⟨al0.state.length - 2 - i + 1, hk1⟩).2 := by
    rw [hlog]
    refine foldl_set_mem _ _ _ _ hnd ?_ (by omega)
    have hx : (i, (w.written.get ⟨al0.state.length - 2 - i + 1, hk1⟩).2)
        = w.written.get ⟨al0.state.length - 2 - i + 1, hk1⟩ := Prod.ext hAi.symm rfl
    rw [hx]
    exact List.get_mem _ _ _
  have hgetB : w.state[i + 1]? =
      some (w.written.get ⟨al0.state.length - 2 - i, Nat.lt_of_succ_lt hk1⟩).2 := by
    rw [hlog]
    refine foldl_set_mem _ _ _ _ hnd ?_ (by omega)
    have hx : (i + 1, (w.written.get ⟨al0.state.length - 2 - i, Nat.lt_of_succ_lt hk1⟩).2)
        = w.written.get ⟨al0.state.length - 2 - i, Nat.lt_of_succ_lt hk1⟩ :=
      Prod.ext hBi.symm rfl
    rw [hx]
    exact List.get_mem _ _ _
  obtain ⟨_, hA2⟩ := List.getElem?_eq_some.mp hgetA
  obtain ⟨_, hB2⟩ := List.getElem?_eq_some.mp hgetB
  show (w.state.get _).start + (w.state.get _).duration = (w.state.get _).start
  simp only [List.get_eq_getElem]
  rw [hA2, hB2]
  exact hadj

/-- C1, counterexample. A three-state phone whose best path takes the skip
transition `0 → 2`: after `init`, `start`, the steps for frames 0 and 1 and a
successful `finish`, the state-level entries are `(start, duration) = (0, 1),
(0, 0), (1, 1)`; entry 0 ends at frame 1 while entry 1 still starts at 0. -/
theorem finish_skipped_state_gap :
    (skip_run.bind state_align_search_finish).map (fun r => (r.1, state_spans r.2))
        = some (0, some [(0, 1), (0, 0), (1, 1)])
      ∧ ¬ ((0 : Int) + 1 = 0) := by
  constructor
  · decide
  · decide

/-! ## Initialisation -/

theorem set_append_length {α : Type} (pre : List α) (x y : α) (tl : List α) :
    (pre ++ x :: tl).set pre.length y = pre ++ y :: tl := by
  induction pre with
  | nil => rfl
  | cons a as ih => simp [ih]

theorem init_loop_closed (nstate : Nat) :
    ∀ (ents : List Entry) (s : SAS) (preH : List Hmm) (preS preE : List Int),
      s.hmms = preH ++ List.replicate ents.length zero_hmm →
      s.sf = preS ++ List.replicate ents.length 0 →
      s.ef = preE ++ List.replicate ents.length 0 →
      preS.length = preH.length → preE.length = preH.length →
      init_loop nstate preH.length ents s =
        { s with
          hmms := preH ++ ents.map (fun e => hmm_init nstate e.ssid e.tmatid)
          sf := preS ++ ents.map window_start
          ef := preE ++ ents.map window_end } := by
  intro ents
  induction ents with
  | nil =>
    intro s preH preS preE hH hS hE _ _
    simp only [List.length_nil, List.replicate_zero, List.append_nil] at hH hS hE
    simp only [init_loop, List.map_nil, List.append_nil, ← hH, ← hS, ← hE]
  | cons e es ih =>
    intro s preH preS preE hH hS hE hlS hlE
    have hlt : preH.length < s.hmms.length := by
      rw [hH]; simp
    simp only [init_loop, if_pos hlt]
    have hH1 : s.hmms.set preH.length (hmm_init nstate e.ssid e.tmatid)
        = (preH ++ [hmm_init nstate e.ssid e.tmatid]) ++ List.replicate es.length zero_hmm := by
      rw [hH, List.length_cons, List.replicate_succ, set_append_length]; simp
    have hS1 : s.sf.set preH.length (if e.start > 0 then e.start else 0)
        = (preS ++ [window_start e]) ++ List.replicate es.length 0 := by
      rw [hS, ← hlS, List.length_cons, List.replicate_succ, set_append_length]
      simp [window_start]
    have hE1 : s.ef.set preH.length (if e.duration > 0 then e.start + e.duration else INT_MAX)
        = (preE ++ [window_end e]) ++ List.replicate es.length 0 := by
      rw [hE, ← hlE, List.length_cons, List.replicate_succ, set_append_length]
      simp [window_end]
    have := ih
      { s with
        hmms := s.hmms.set preH.length (hmm_init nstate e.ssid e.tmatid)
        sf := s.sf.set preH.length (if e.start > 0 then e.start else 0)
        ef := s.ef.set preH.length (if e.duration > 0 then e.start + e.duration else INT_MAX) }
      (preH ++ [hmm_init nstate e.ssid e.tmatid]) (preS ++ [window_start e])
      (preE ++ [window_end e]) hH1 hS1 hE1 (by simp [hlS]) (by simp [hlE])
    simp only [List.length_append, List.length_singleton] at this
    rw [this]
    simp

/-- The closed form of `state_align_search_init`. -/
theorem init_closed (nstate : Nat) (al : Alignment) (s : SAS)
    (h : state_align_search_init nstate true al = some s) :
    s = { al := some al
          hmms := al.sseq.map (fun e => hmm_init nstate e.ssid e.tmatid)
          sf := al.sseq.map window_start
          ef := al.sseq.map window_end
          frame := 0
          best_score := 0
          tokens := []
          n_emit_state := al.state.length
          n_fr_alloc := 0
          ctx_n_emit_state := nstate
          hyp_str := none } := by
  simp only [state_align_search_init, if_true, Option.some.injEq] at h
  rw [← h]
  have := init_loop_closed nstate al.sseq
    { al := some al
      hmms := List.replicate al.sseq.length zero_hmm
      sf := List.replicate al.sseq.length 0
      ef := List.replicate al.sseq.length 0
      frame := 0
      best_score := 0
      tokens := []
      n_emit_state := al.state.length
      n_fr_alloc := 0
      ctx_n_emit_state := nstate
      hyp_str := none } [] [] [] (by simp) (by simp) (by simp) rfl rfl
  simp only [List.length_nil, List.nil_append] at this
  rw [this]

/-! ## The stepping engine: what a step does to the markers -/

theorem marker_eq (s : SAS) (i : Nat) :
    marker s i = ((s.hmms[i]?).map Hmm.frame).getD (-1) := by
  simp [marker, List.getD_eq_getElem?_getD]

theorem evaluate_loop_frames (c : Collab) (senscr : List Int) (f : Nat) :
    ∀ (hs : List Hmm) (bs : Int),
      (evaluate_loop c senscr f hs bs).1.map Hmm.frame = hs.map Hmm.frame := by
  intro hs
  induction hs with
  | nil => intro bs; rfl
  | cons h hs ih =>
    intro bs
    unfold evaluate_loop
    split
    · simp [ih]
    · simp [ih, hmm_vit_eval]

theorem record_states_frame (base nstate i : Nat) :
    ∀ (m j : Nat) (tokens : List Hist) (hmm : Hmm),
      (record_states base nstate i j m tokens hmm).2.frame = hmm.frame := by
  intro m
  induction m with
  | zero => intro j tokens hmm; rfl
  | succ m ih => intro j tokens hmm; simp only [record_states]; rw [ih]

theorem record_loop_frames (base nstate f : Nat) :
    ∀ (hs : List Hmm) (i : Nat) (tokens : List Hist),
      (record_loop base nstate f i hs tokens).2.map Hmm.frame = hs.map Hmm.frame := by
  intro hs
  induction hs with
  | nil => intro i tokens; rfl
  | cons h hs ih =>
    intro i tokens
    unfold record_loop
    split
    · simp [ih]
    · simp [ih, record_states_frame]

theorem prune_loop_getElem? (ef : List Int) (f : Nat) :
    ∀ (hs : List Hmm) (i j : Nat),
      (prune_loop ef f i hs)[j]? = (hs[j]?).map (prune_hmm ef f (i + j)) := by
  intro hs
  induction hs with
  | nil => intro i j; simp [prune_loop]
  | cons h hs ih =>
    intro i j
    cases j with
    | zero => simp [prune_loop]
    | succ j =>
      simp only [prune_loop, List.getElem?_cons_succ, ih]
      rw [show i + 1 + j = i + (j + 1) by omega]

theorem prune_hmm_frame (ef : List Int) (f i : Nat) (h : Hmm) :
    (prune_hmm ef f i h).frame = h.frame ∨
      ((prune_hmm ef f i h).frame = (f : Int) + 1 ∧ (f : Int) ≤ h.frame ∧
        (f : Int) + 1 ≤ ef.getD i 0) := by
  unfold prune_hmm
  simp only
  split
  · exact Or.inl rfl
  · split
    · exact Or.inl rfl
    · exact Or.inr ⟨rfl, by omega, by omega⟩

theorem transition_pair_frame (sf : List Int) (f i : Nat) (hmm nhmm : Hmm) :
    (transition_pair sf f i hmm nhmm).frame = nhmm.frame ∨
      ((transition_pair sf f i hmm nhmm).frame = (f : Int) + 1 ∧ hmm.frame = (f : Int) + 1 ∧
        sf.getD (i + 1) 0 ≤ (f : Int) + 1) := by
  unfold transition_pair
  simp only
  split
  · exact Or.inl rfl
  · rename_i hfr
    split
    · exact Or.inl rfl
    · split
      · exact Or.inr ⟨rfl, by simpa using hfr, by omega⟩
      · exact Or.inl rfl

theorem transition_loop_length (sf : List Int) (f : Nat) :
    ∀ (rest : List Hmm) (i : Nat) (hmm : Hmm),
      (transition_loop sf f i hmm rest).length = rest.length + 1 := by
  intro rest
  induction rest with
  | nil => intro i hmm; rfl
  | cons nh r ih => intro i hmm; simp [transition_loop, ih]

theorem transition_loop_zero (sf : List Int) (f : Nat) (rest : List Hmm) (i : Nat) (hmm : Hmm) :
    (transition_loop sf f i hmm rest)[0]? = some hmm := by
  cases rest <;> simp [transition_loop]

/-- The cascade of `phone_transition`: instance `i + j + 1` after the pass is
the result of processing the pair made of instance `i + j` as the pass left it
and instance `i + j + 1` as it was before the pass. -/
theorem transition_loop_succ (sf : List Int) (f : Nat) :
    ∀ (rest : List Hmm) (i : Nat) (hmm : Hmm) (j : Nat) (hj : j < rest.length),
      ∃ p, (transition_loop sf f i hmm rest)[j]? = some p ∧
        (transition_loop sf f i hmm rest)[j + 1]?
          = some (transition_pair sf f (i + j) p (rest.get ⟨j, hj⟩)) := by
  intro rest
  induction rest with
  | nil => intro i hmm j hj; simp at hj
  | cons nh r ih =>
    intro i hmm j hj
    cases j with
    | zero =>
      refine ⟨hmm, by simp [transition_loop], ?_⟩
      simp [transition_loop, transition_loop_zero]
    | succ j =>
      have hj1 : j < r.length := by simpa using hj
      obtain ⟨p, hp1, hp2⟩ := ih (i + 1) (transition_pair sf f i hmm nh) j hj1
      refine ⟨p, by simpa [transition_loop] using hp1, ?_⟩
      simp only [transition_loop, List.getElem?_cons_succ, hp2, List.get_cons_succ]
      rw [show i + 1 + j = i + (j + 1) by omega]

theorem frame_of_getElem? (l : List Hmm) (j : Nat) (h : Hmm) (hl : l[j]? = some h) :
    (l.map Hmm.frame).getD j (-1) = h.frame := by
  simp [List.getD_eq_getElem?_getD, hl]

theorem getElem?_of_frames_eq (l1 l2 : List Hmm) (hf : l1.map Hmm.frame = l2.map Hmm.frame)
    (j : Nat) (hj : j < l2.length) :
    ∃ h1 h2, l1[j]? = some h1 ∧ l2[j]? = some h2 ∧ h1.frame = h2.frame := by
  have hlen : l1.length = l2.length := by
    have := congrArg List.length hf
    simpa using this
  have hj1 : j < l1.length := by omega
  refine ⟨l1[j], l2[j], List.getElem?_eq_getElem hj1, List.getElem?_eq_getElem hj, ?_⟩
  have h1 : (l1.map Hmm.frame)[j]? = (l2.map Hmm.frame)[j]? := by rw [hf]
  simpa [List.getElem?_eq_getElem hj1, List.getElem?_eq_getElem hj] using h1

theorem prune_loop_length (ef : List Int) (f : Nat) :
    ∀ (hs : List Hmm) (i : Nat), (prune_loop ef f i hs).length = hs.length := by
  intro hs
  induction hs with
  | nil => intro i; rfl
  | cons h hs ih => intro i; simp [prune_loop, ih]

theorem transition_all_length (sf : List Int) (f : Nat) (hs : List Hmm) :
    (transition_all sf f hs).length = hs.length := by
  cases hs with
  | nil => rfl
  | cons h r => simp [transition_all, transition_loop_length]

theorem extend_tokenstack_fields (junk : Hist) (s : SAS) (f : Nat) :
    (extend_tokenstack junk s f).hmms = s.hmms ∧ (extend_tokenstack junk s f).sf = s.sf ∧
    (extend_tokenstack junk s f).ef = s.ef ∧
    (extend_tokenstack junk s f).n_emit_state = s.n_emit_state ∧
    (extend_tokenstack junk s f).ctx_n_emit_state = s.ctx_n_emit_state ∧
    (extend_tokenstack junk s f).al = s.al := by
  unfold extend_tokenstack
  by_cases h : f ≥ s.n_fr_alloc
  · simp [h]
  · simp [h]

theorem record_transitions_fields (junk : Hist) (s : SAS) (f : Nat) :
    (record_transitions junk s f).hmms.map Hmm.frame = s.hmms.map Hmm.frame ∧
    (record_transitions junk s f).sf = s.sf ∧ (record_transitions junk s f).ef = s.ef := by
  obtain ⟨h1, h2, h3, -, -, -⟩ := extend_tokenstack_fields junk s f
  refine ⟨?_, ?_, ?_⟩
  · simp only [record_transitions, record_loop_frames, h1]
  · simp only [record_transitions, h2]
  · simp only [record_transitions, h3]

theorem renormalize_fields (s : SAS) (norm : Int) :
    (renormalize_hmms s norm).hmms.map Hmm.frame = s.hmms.map Hmm.frame ∧
    (renormalize_hmms s norm).sf = s.sf ∧ (renormalize_hmms s norm).ef = s.ef := by
  refine ⟨?_, rfl, rfl⟩
  simp [renormalize_hmms, hmm_normalize, List.map_map, Function.comp_def]

theorem evaluate_fields (c : Collab) (s : SAS) (senscr : List Int) (f : Nat) :
    (evaluate_hmms c s senscr f).1.hmms.map Hmm.frame = s.hmms.map Hmm.frame ∧
    (evaluate_hmms c s senscr f).1.sf = s.sf ∧ (evaluate_hmms c s senscr f).1.ef = s.ef := by
  refine ⟨?_, rfl, rfl⟩
  simp [evaluate_hmms, evaluate_loop_frames]

/-- The shape of a step, as far as markers and windows are concerned: the
instances are evaluated (markers untouched), pruned, passed through the phone
transition, and recorded (markers untouched). -/
theorem step_shape (c : Collab) (junk : Hist) (s : SAS) (f : Nat) :
    ∃ hs1 : List Hmm, hs1.map Hmm.frame = s.hmms.map Hmm.frame ∧
      (state_align_search_step c junk s f).hmms.map Hmm.frame
        = (transition_all s.sf f (prune_loop s.ef f 0 hs1)).map Hmm.frame ∧
      (state_align_search_step c junk s f).sf = s.sf ∧
      (state_align_search_step c junk s f).ef = s.ef := by
  have key : ∀ s1 : SAS, s1.hmms.map Hmm.frame = s.hmms.map Hmm.frame → s1.sf = s.sf →
      s1.ef = s.ef →
      ∃ hs1 : List Hmm, hs1.map Hmm.frame = s.hmms.map Hmm.frame ∧
        (record_transitions junk (phone_transition (prune_hmms
            { (evaluate_hmms c s1 (c.acmod_score f) f).1 with
              best_score := (evaluate_hmms c s1 (c.acmod_score f) f).2 } f) f) f).hmms.map Hmm.frame
          = (transition_all s.sf f (prune_loop s.ef f 0 hs1)).map Hmm.frame ∧
        (record_transitions junk (phone_transition (prune_hmms
            { (evaluate_hmms c s1 (c.acmod_score f) f).1 with
              best_score := (evaluate_hmms c s1 (c.acmod_score f) f).2 } f) f) f).sf = s.sf ∧
        (record_transitions junk (phone_transition (prune_hmms
            { (evaluate_hmms c s1 (c.acmod_score f) f).1 with
              best_score := (evaluate_hmms c s1 (c.acmod_score f) f).2 } f) f) f).ef = s.ef := by
    intro s1 hf hsf hef
    obtain ⟨e1, e2, e3⟩ := evaluate_fields c s1 (c.acmod_score f) f
    refine ⟨(evaluate_hmms c s1 (c.acmod_score f) f).1.hmms, by rw [e1, hf], ?_, ?_, ?_⟩
    · rw [(record_transitions_fields junk _ f).1]
      simp only [phone_transition, prune_hmms, e2, e3, hsf, hef]
    · rw [(record_transitions_fields junk _ f).2.1]
      simp only [phone_transition, prune_hmms, e2, hsf]
    · rw [(record_transitions_fields junk _ f).2.2]
      simp only [phone_transition, prune_hmms, e3, hef]
  by_cases hr : s.best_score - 0x300000 < WORST_SCORE
  · obtain ⟨r1, r2, r3⟩ := renormalize_fields s s.best_score
    have := key (renormalize_hmms s s.best_score) r1 r2 r3
    simpa only [state_align_search_step, hr, if_true] using this
  · have := key s rfl rfl rfl
    simpa only [state_align_search_step, hr, if_false] using this

/-- What one step does to the marker of instance `j`: it leaves it alone, or
pruning advances it to `f + 1` (the instance was active and `f + 1` is within
its end frame), or the phone transition enters the instance (its predecessor is
marked for `f + 1` and `f + 1` is not before its start frame). -/
theorem step_marker_cases (c : Collab) (junk : Hist) (s : SAS) (f j : Nat)
    (hj : j < s.hmms.length) :
    (state_align_search_step c junk s f).hmms.length = s.hmms.length ∧
    (marker (state_align_search_step c junk s f) j = marker s j ∨
      (marker (state_align_search_step c junk s f) j = (f : Int) + 1 ∧
        (f : Int) ≤ marker s j ∧ (f : Int) + 1 ≤ s.ef.getD j 0) ∨
      (1 ≤ j ∧ marker (state_align_search_step c junk s f) j = (f : Int) + 1 ∧
        marker (state_align_search_step c junk s f) (j - 1) = (f : Int) + 1 ∧
        s.sf.getD j 0 ≤ (f : Int) + 1)) := by
  obtain ⟨hs1, hf1, hT, -, -⟩ := step_shape c junk s f
  have hlen1 : hs1.length = s.hmms.length := by
    have := congrArg List.length hf1
    simpa using this
  have hlenT : (transition_all s.sf f (prune_loop s.ef f 0 hs1)).length = s.hmms.length := by
    rw [transition_all_length, prune_loop_length, hlen1]
  constructor
  · have := congrArg List.length hT
    simp only [List.length_map] at this
    rw [this, hlenT]
  -- markers of the step are those of the transition output
  have hmk : ∀ k, marker (state_align_search_step c junk s f) k
      = ((transition_all s.sf f (prune_loop s.ef f 0 hs1)).map Hmm.frame).getD k (-1) := by
    intro k; unfold marker; rw [hT]
  -- instance j before the step, after evaluation, and after pruning
  obtain ⟨h1, h0, hg1, hg0, hfr⟩ := getElem?_of_frames_eq hs1 s.hmms hf1 j hj
  have hm0 : marker s j = h0.frame := frame_of_getElem? _ _ _ hg0
  have hP : (prune_loop s.ef f 0 hs1)[j]? = some (prune_hmm s.ef f j h1) := by
    rw [prune_loop_getElem?, hg1]; simp
  have hprune := prune_hmm_frame s.ef f j h1
  rw [hfr, ← hm0] at hprune
  -- the transition output at j
  cases hPl : prune_loop s.ef f 0 hs1 with
  | nil =>
    rw [hPl] at hP; simp at hP
  | cons p0 rest =>
    rw [hPl] at hP
    cases j with
    | zero =>
      simp only [List.getElem?_cons_zero, Option.some.injEq] at hP
      have : marker (state_align_search_step c junk s f) 0 = (prune_hmm s.ef f 0 h1).frame := by
        rw [hmk, hPl]
        exact frame_of_getElem? _ _ _ (by
          simp only [transition_all]; rw [transition_loop_zero, hP])
      rw [this]
      rcases hprune with h | h
      · exact Or.inl h
      · exact Or.inr (Or.inl h)
    | succ j =>
      simp only [List.getElem?_cons_succ] at hP
      obtain ⟨hjr, hjeq⟩ := List.getElem?_eq_some.mp hP
      obtain ⟨p, hp1, hp2⟩ := transition_loop_succ s.sf f rest 0 p0 j hjr
      have hmj1 : marker (state_align_search_step c junk s f) (j + 1)
          = (transition_pair s.sf f (0 + j) p (rest.get ⟨j, hjr⟩)).frame := by
        rw [hmk, hPl]
        exact frame_of_getElem? _ _ _ (by simpa only [transition_all] using hp2)
      have hmj : marker (state_align_search_step c junk s f) j = p.frame := by
        rw [hmk, hPl]
        exact frame_of_getElem? _ _ _ (by simpa only [transition_all] using hp1)
      have hrj : rest.get ⟨j, hjr⟩ = prune_hmm s.ef f (j + 1) h1 := by
        rw [List.get_eq_getElem]; exact hjeq
      rcases transition_pair_frame s.sf f (0 + j) p (rest.get ⟨j, hjr⟩) with ht | ht
      · rw [hmj1, ht, hrj]
        rcases hprune with h | h
        · exact Or.inl h
        · exact Or.inr (Or.inl h)
      · refine Or.inr (Or.inr ⟨by omega, by rw [hmj1]; exact ht.1, ?_, ?_⟩)
        · simp only [Nat.add_sub_cancel]; rw [hmj]; exact ht.2.1
        · have := ht.2.2
          simpa using this

/-! ## Runs -/

theorem start_fields (s : SAS) :
    (state_align_search_start s).sf = s.sf ∧ (state_align_search_start s).ef = s.ef ∧
    (state_align_search_start s).hmms.length = s.hmms.length := by
  unfold state_align_search_start
  cases h : s.hmms with
  | nil => simp [h]
  | cons a as => simp

theorem step_length (c : Collab) (junk : Hist) (s : SAS) (f : Nat) :
    (state_align_search_step c junk s f).hmms.length = s.hmms.length := by
  obtain ⟨hs1, hf1, hT, -, -⟩ := step_shape c junk s f
  have h1 := congrArg List.length hf1
  have h2 := congrArg List.length hT
  simp only [List.length_map] at h1 h2
  rw [h2, transition_all_length, prune_loop_length, h1]

theorem run_fields (c : Collab) (junk : Hist) (s0 : SAS) (n : Nat) :
    (run c junk s0 n).sf = s0.sf ∧ (run c junk s0 n).ef = s0.ef ∧
    (run c junk s0 n).hmms.length = s0.hmms.length := by
  induction n with
  | zero => exact start_fields s0
  | succ n ih =>
    obtain ⟨_, -, -, h3, h4⟩ := step_shape c junk (run c junk s0 n) n
    exact ⟨by simp only [run]; rw [h3, ih.1], by simp only [run]; rw [h4, ih.2.1],
      by simp only [run]; rw [step_length, ih.2.2]⟩

/-- The markers right after `init` and `start`: the first phone is marked for
frame 0, every other phone is inactive. -/
theorem run_zero_marker (c : Collab) (junk : Hist) (nstate : Nat) (al : Alignment) (s0 : SAS)
    (h : state_align_search_init nstate true al = some s0) (i : Nat) (hi : i < al.sseq.length) :
    marker (run c junk s0 0) i = if i = 0 then 0 else -1 := by
  have hs := init_closed nstate al s0 h
  subst hs
  simp only [run, state_align_search_start, marker]
  cases hq : al.sseq with
  | nil => rw [hq] at hi; simp at hi
  | cons e es =>
    cases i with
    | zero => simp [hmm_enter]
    | succ i =>
      have hi1 : i < es.length := by rw [hq] at hi; simpa using hi
      simp [hmm_enter, List.getD_eq_getElem?_getD, List.getElem?_eq_getElem hi1, hmm_init]

theorem run_marker_le (c : Collab) (junk : Hist) (nstate : Nat) (al : Alignment) (s0 : SAS)
    (h : state_align_search_init nstate true al = some s0) (n i : Nat) (hi : i < al.sseq.length) :
    marker (run c junk s0 n) i ≤ (n : Int) := by
  have hN : s0.hmms.length = al.sseq.length := by
    rw [init_closed nstate al s0 h]; simp
  induction n generalizing i with
  | zero =>
    rw [run_zero_marker c junk nstate al s0 h i hi]
    split <;> simp
  | succ n ih =>
    have hlen := (run_fields c junk s0 n).2.2
    obtain ⟨-, hc⟩ := step_marker_cases c junk (run c junk s0 n) n i (by omega)
    have := ih i hi
    simp only [run]
    push_cast
    rcases hc with hc | hc | hc
    · omega
    · omega
    · omega

theorem init_ef_nonneg (nstate : Nat) (al : Alignment) (s0 : SAS)
    (h : state_align_search_init nstate true al = some s0)
    (hpos : ∀ e ∈ al.sseq, 0 ≤ e.start) (i : Nat) (hi : i < al.sseq.length) :
    0 ≤ s0.ef.getD i 0 := by
  rw [init_closed nstate al s0 h]
  simp only [List.getD_eq_getElem?_getD, List.getElem?_map, List.getElem?_eq_getElem hi,
    Option.map_some', Option.getD_some]
  have := hpos al.sseq[i] (List.getElem_mem _)
  unfold window_end INT_MAX
  split <;> omega

/-- C5 (forced-window end, amended). In every run (`init`, `start`, then `step`
for frames `0, 1, 2, ...` in order) on hints with non-negative starts, pruning
never advances a marker past the end frame: after any number of steps the
marker of phone `i` is at most `end_frame[i]`, unless a phone transition set
it, that is, it equals `k + 1` for an earlier step `k` after which the
predecessor was marked for `k + 1` and `k + 1` was not before `start_frame[i]`
(the phone transition does not consult `end_frame`). -/
theorem run_end_frame_unless_entered (c : Collab) (junk : Hist) (nstate : Nat)
    (al : Alignment) (s0 : SAS) (h : state_align_search_init nstate true al = some s0)
    (hpos : ∀ e ∈ al.sseq, 0 ≤ e.start) (n i : Nat) (hi : i < al.sseq.length) :
    marker (run c junk s0 n) i ≤ (run c junk s0 n).ef.getD i 0 ∨
      (1 ≤ i ∧ ∃ k : Nat, k < n ∧ marker (run c junk s0 n) i = (k : Int) + 1 ∧
        marker (run c junk s0 (k + 1)) (i - 1) = (k : Int) + 1 ∧
        (run c junk s0 n).sf.getD i 0 ≤ (k : Int) + 1) := by
  have hN : s0.hmms.length = al.sseq.length := by
    rw [init_closed nstate al s0 h]; simp
  induction n with
  | zero =>
    left
    rw [run_zero_marker c junk nstate al s0 h i hi, (run_fields c junk s0 0).2.1]
    have := init_ef_nonneg nstate al s0 h hpos i hi
    split <;> omega
  | succ n ih =>
    obtain ⟨hsf, hef, hlen⟩ := run_fields c junk s0 n
    obtain ⟨hsf1, hef1, -⟩ := run_fields c junk s0 (n + 1)
    obtain ⟨-, hc⟩ := step_marker_cases c junk (run c junk s0 n) n i (by omega)
    rw [hsf1, hef1]
    rw [hsf, hef] at ih
    rw [hsf, hef] at hc
    rcases hc with hc | hc | hc
    · rcases ih with ih | ⟨h1, k, hk, hk1, hk2, hk3⟩
      · left; simp only [run]; rw [hc]; exact ih
      · right
        exact ⟨h1, k, by omega, by simp only [run]; rw [hc]; exact hk1, hk2, hk3⟩
    · left; simp only [run]; rw [hc.1]; exact hc.2.2
    · right
      exact ⟨hc.1, n, by omega, hc.2.1, hc.2.2.1, hc.2.2.2⟩

/-- C5, counterexample. Two phones, only the second hinted with `(start,
duration) = (2, 1)`, so `end_frame[1] = 3`. After the steps for frames 0 to 4
the second phone's marker is 5: it was re-entered by the phone transition of
frame 4 although `5 > end_frame[1]`. -/
theorem marker_past_end_frame :
    (state_align_search_init 1 true late_al).map
        (fun s => (marker (run plain_collab invalid_hist s 5) 1,
                   (run plain_collab invalid_hist s 5).ef.getD 1 0))
      = some (5, 3) ∧ ¬ ((5 : Int) ≤ 3) := by
  constructor
  · decide
  · decide

/-- C6 (forced-window start, amended). In every run (`init`, `start`, then
`step` for frames `0, 1, 2, ...` in order), every phone other than the first is
either still inactive (marker `-1`, never entered) or marked for a frame that is
not earlier than its `start_frame`. The first phone is activated by `start` at
frame 0 whatever `start_frame[0]` is. -/
theorem run_start_frame_respected (c : Collab) (junk : Hist) (nstate : Nat)
    (al : Alignment) (s0 : SAS) (h : state_align_search_init nstate true al = some s0)
    (n i : Nat) (hi1 : 1 ≤ i) (hi : i < al.sseq.length) :
    marker (run c junk s0 n) i = -1 ∨
      (run c junk s0 n).sf.getD i 0 ≤ marker (run c junk s0 n) i := by
  have hN : s0.hmms.length = al.sseq.length := by
    rw [init_closed nstate al s0 h]; simp
  induction n with
  | zero =>
    left
    rw [run_zero_marker c junk nstate al s0 h i hi]
    have : i ≠ 0 := by omega
    simp [this]
  | succ n ih =>
    obtain ⟨hsf, -, hlen⟩ := run_fields c junk s0 n
    obtain ⟨hsf1, -, -⟩ := run_fields c junk s0 (n + 1)
    obtain ⟨-, hc⟩ := step_marker_cases c junk (run c junk s0 n) n i (by omega)
    have hle := run_marker_le c junk nstate al s0 h n i hi
    rw [hsf1]
    rw [hsf] at ih hc
    simp only [run]
    rcases hc with hc | hc | hc
    · rw [hc]; exact ih
    · right
      rw [hc.1]
      rcases ih with ih | ih
      · omega
      · omega
    · right
      rw [hc.2.1]; exact hc.2.2.2

/-- C6, counterexample. A single phone hinted with `(start, duration) = (5, 0)`
has `start_frame[0] = 5`, yet right after `start` it is marked active for
frame 0. -/
theorem first_phone_before_start_frame :
    (state_align_search_init 1 true hint_al).map
        (fun s => (marker (run plain_collab invalid_hist s 0) 0,
                   (run plain_collab invalid_hist s 0).sf.getD 0 0))
      = some (0, 5) ∧ (0 : Int) < 5 := by
  constructor
  · decide
  · decide

/-- C7 (forced windows, amended). For every phone entry with hint `(start,
duration)`, `state_align_search_init` sets `start_frame = start` when `start >
0` and `0` otherwise, and `end_frame = start + duration` when `duration > 0` and
`INT_MAX` otherwise. In particular a hint with duration zero gets `end_frame =
INT_MAX`, and it gets the window `(0, INT_MAX)` only when its start is not
positive; with a positive start the window is `(start, INT_MAX)`. -/
theorem init_forced_windows (nstate : Nat) (al : Alignment) (s : SAS)
    (h : state_align_search_init nstate true al = some s) (i : Nat) (hi : i < al.sseq.length) :
    s.sf[i]? = some (if (al.sseq.get ⟨i, hi⟩).start > 0 then (al.sseq.get ⟨i, hi⟩).start else 0) ∧
    s.ef[i]? = some (if (al.sseq.get ⟨i, hi⟩).duration > 0
      then (al.sseq.get ⟨i, hi⟩).start + (al.sseq.get ⟨i, hi⟩).duration else INT_MAX) ∧
    ((al.sseq.get ⟨i, hi⟩).duration = 0 →
      s.ef[i]? = some INT_MAX ∧
      ((al.sseq.get ⟨i, hi⟩).start ≤ 0 → s.sf[i]? = some 0) ∧
      (0 < (al.sseq.get ⟨i, hi⟩).start → s.sf[i]? = some (al.sseq.get ⟨i, hi⟩).start)) := by
  have hsf : s.sf[i]? = some (window_start (al.sseq.get ⟨i, hi⟩)) := by
    rw [init_closed nstate al s h]
    simp [List.getElem?_map, List.getElem?_eq_getElem hi]
  have hef : s.ef[i]? = some (window_end (al.sseq.get ⟨i, hi⟩)) := by
    rw [init_closed nstate al s h]
    simp [List.getElem?_map, List.getElem?_eq_getElem hi]
  refine ⟨hsf, hef, fun hd => ⟨?_, fun hs => ?_, fun hs => ?_⟩⟩
  · rw [hef]; simp only [window_end, Option.some.injEq]
    rw [if_neg (by omega)]
  · rw [hsf]; simp only [window_start, Option.some.injEq]
    rw [if_neg (by omega)]
  · rw [hsf]; simp only [window_start, Option.some.injEq]
    rw [if_pos (by omega)]

/-- C7, counterexample. A phone whose hint is `(start, duration) = (5, 0)` has
duration zero but gets the window `(5, INT_MAX)`, not `(0, INT_MAX)`. -/
theorem zero_duration_keeps_start :
    (hint_al.sseq.map (fun e => (e.start, e.duration)) = [(5, 0)]) ∧
    (state_align_search_init 1 true hint_al).map (fun s => (s.sf, s.ef))
      = some ([5], [2147483647]) ∧ ¬ ((5 : Int) = 0) := by
  refine ⟨by decide, by decide, by decide⟩

/-! ## The hypothesis string -/

theorem real_base_strings_cons_real (d : Dict) (e : Entry) (ws : List Entry) (w : CStr)
    (hr : d.real_word e.wid = true) (hb : d.basestr e.wid = some w) :
    real_base_strings d (e :: ws) = w :: real_base_strings d ws := by
  simp [real_base_strings, List.filter_cons, hr, List.filterMap_cons, hb]

theorem real_base_strings_cons_aux (d : Dict) (e : Entry) (ws : List Entry)
    (hr : ¬ d.real_word e.wid = true) :
    real_base_strings d (e :: ws) = real_base_strings d ws := by
  simp [real_base_strings, List.filter_cons, hr]

theorem hyp_len_loop_some (d : Dict) :
    ∀ (ws : List Entry) (n : Nat),
      (∀ e ∈ ws, d.real_word e.wid = true → ∃ w, d.basestr e.wid = some w) →
      hyp_len_loop d ws n = some (n + (spaced (real_base_strings d ws)).length) := by
  intro ws
  induction ws with
  | nil => intro n _; simp [hyp_len_loop, real_base_strings, spaced]
  | cons e es ih =>
    intro n hb
    have hbs : ∀ x ∈ es, d.real_word x.wid = true → ∃ w, d.basestr x.wid = some w :=
      fun x hx => hb x (List.mem_cons_of_mem _ hx)
    unfold hyp_len_loop
    by_cases hr : d.real_word e.wid = true
    · obtain ⟨w, hw⟩ := hb e (List.mem_cons_self _ _) hr
      rw [if_pos hr, hw]
      simp only
      rw [ih _ hbs, real_base_strings_cons_real d e es w hr hw]
      simp only [spaced, List.length_append, List.length_cons]
      congr 1
      omega
    · rw [if_neg hr, ih _ hbs, real_base_strings_cons_aux d e es hr]

theorem hyp_fill_loop_some (d : Dict) (cap : Nat) :
    ∀ (ws : List Entry) (buf : CStr) (sc : Int),
      (∀ e ∈ ws, d.real_word e.wid = true → ∃ w, d.basestr e.wid = some w) →
      buf.length + (spaced (real_base_strings d ws)).length + 1 ≤ cap →
      hyp_fill_loop d cap ws buf sc
        = some (buf ++ spaced (real_base_strings d ws), ((ws.getLast?).map Entry.score).getD sc) := by
  intro ws
  induction ws with
  | nil => intro buf sc _ _; simp [hyp_fill_loop, real_base_strings, spaced]
  | cons e es ih =>
    intro buf sc hb hcap
    have hbs : ∀ x ∈ es, d.real_word x.wid = true → ∃ w, d.basestr x.wid = some w :=
      fun x hx => hb x (List.mem_cons_of_mem _ hx)
    have hlast : (((e :: es).getLast?).map Entry.score).getD sc
        = ((es.getLast?).map Entry.score).getD e.score := by
      rw [List.getLast?_cons]
      cases es.getLast? <;> simp
    rw [hlast]
    unfold hyp_fill_loop
    by_cases hr : d.real_word e.wid = true
    · obtain ⟨w, hw⟩ := hb e (List.mem_cons_self _ _) hr
      rw [real_base_strings_cons_real d e es w hr hw] at hcap ⊢
      simp only [spaced, List.length_append, List.length_cons] at hcap
      rw [if_pos hr, hw]
      simp only [strcat]
      rw [if_pos (by omega)]
      simp only [List.length_append, List.length_singleton]
      rw [if_pos (by omega)]
      simp only
      rw [ih _ _ hbs (by simp only [List.length_append, List.length_singleton]; omega)]
      simp [spaced]
    · rw [if_neg hr, real_base_strings_cons_aux d e es hr]
      rw [real_base_strings_cons_aux d e es hr] at hcap
      exact ih _ _ hbs hcap

theorem spaced_ne_nil (w : CStr) (ws : List CStr) : spaced (w :: ws) ≠ [] := by
  simp [spaced]

theorem spaced_dropLast : ∀ (ws : List CStr), ws ≠ [] →
    (spaced ws).dropLast = List.intercalate [' '] ws := by
  intro ws
  induction ws with
  | nil => intro h; exact absurd rfl h
  | cons w r ih =>
    intro _
    cases r with
    | nil =>
      simp only [spaced]
      rw [List.dropLast_concat]
      simp [List.intercalate]
    | cons w2 r2 =>
      have h2 := ih (List.cons_ne_nil _ _)
      have : spaced (w :: w2 :: r2) = (w ++ [' ']) ++ spaced (w2 :: r2) := by
        simp [spaced]
      rw [this, List.dropLast_append_of_ne_nil _ (spaced_ne_nil w2 r2), h2]
      simp [List.intercalate]

theorem intercalate_edges : ∀ (ws : List CStr), ws ≠ [] →
    (∀ w ∈ ws, w ≠ [] ∧ ' ' ∉ w) →
    List.intercalate [' '] ws ≠ [] ∧
    (List.intercalate [' '] ws).head? ≠ some ' ' ∧
    (List.intercalate [' '] ws).getLast? ≠ some ' ' := by
  intro ws
  induction ws with
  | nil => intro h; exact absurd rfl h
  | cons w r ih =>
    intro _ hw
    obtain ⟨hne, hsp⟩ := hw w (List.mem_cons_self _ _)
    have hhead : w.head? ≠ some ' ' := by
      intro hh
      exact hsp (List.mem_of_mem_head? hh)
    have hlastw : w.getLast? ≠ some ' ' := by
      intro hh
      exact hsp (List.mem_of_mem_getLast? hh)
    cases r with
    | nil =>
      have : List.intercalate [' '] [w] = w := by simp [List.intercalate]
      rw [this]
      exact ⟨hne, hhead, hlastw⟩
    | cons w2 r2 =>
      obtain ⟨i1, -, i3⟩ := ih (List.cons_ne_nil _ _)
        (fun x hx => hw x (List.mem_cons_of_mem _ hx))
      have : List.intercalate [' '] (w :: w2 :: r2)
          = w ++ ([' '] ++ List.intercalate [' '] (w2 :: r2)) := by
        simp [List.intercalate]
      rw [this]
      refine ⟨by simp [hne], ?_, ?_⟩
      · rw [List.head?_append_of_ne_nil _ hne]; exact hhead
      · rw [List.getLast?_append_of_ne_nil _ (by simp),
          List.getLast?_append_of_ne_nil _ i1]
        exact i3

theorem real_base_strings_ne_nil (d : Dict) :
    ∀ (ws : List Entry),
      (∀ e ∈ ws, d.real_word e.wid = true → ∃ w, d.basestr e.wid = some w) →
      (∃ e ∈ ws, d.real_word e.wid = true) → real_base_strings d ws ≠ [] := by
  intro ws
  induction ws with
  | nil => intro _ h; obtain ⟨e, he, -⟩ := h; cases he
  | cons e es ih =>
    intro hb hex
    by_cases hr : d.real_word e.wid = true
    · obtain ⟨w, hw⟩ := hb e (List.mem_cons_self _ _) hr
      rw [real_base_strings_cons_real d e es w hr hw]
      exact List.cons_ne_nil _ _
    · rw [real_base_strings_cons_aux d e es hr]
      refine ih (fun x hx => hb x (List.mem_cons_of_mem _ hx)) ?_
      obtain ⟨x, hx, hxr⟩ := hex
      rcases List.mem_cons.mp hx with rfl | hx1
      · exact absurd hxr hr
      · exact ⟨x, hx1, hxr⟩

/-- C8 (hypothesis string). For an alignment with at least one real word, all
of whose real words have a base string, `state_align_search_hyp` returns
exactly the base strings of the real word-level entries, in alignment order,
joined by single spaces; auxiliary words contribute nothing. When the base
strings are non-empty and contain no space, the result is non-empty and neither
starts nor ends with a space. -/
theorem hyp_joins_real_words (d : Dict) (s : SAS) (al : Alignment) (out_score : Int)
    (hal : s.al = some al)
    (hreal : ∃ e ∈ al.word, d.real_word e.wid = true)
    (hbase0 : ∀ e ∈ al.word, d.real_word e.wid = true → (d.basestr e.wid).isSome = true) :
    (∃ t sc, state_align_search_hyp d s out_score
        = some (some (List.intercalate [' '] (real_base_strings d al.word)), t, sc)) ∧
    ((∀ w ∈ real_base_strings d al.word, w ≠ [] ∧ ' ' ∉ w) →
      List.intercalate [' '] (real_base_strings d al.word) ≠ [] ∧
      (List.intercalate [' '] (real_base_strings d al.word)).head? ≠ some ' ' ∧
      (List.intercalate [' '] (real_base_strings d al.word)).getLast? ≠ some ' ') := by
  have hbase : ∀ e ∈ al.word, d.real_word e.wid = true → ∃ w, d.basestr e.wid = some w :=
    fun e he hr => Option.isSome_iff_exists.mp (hbase0 e he hr)
  have hne := real_base_strings_ne_nil d al.word hbase hreal
  refine ⟨?_, intercalate_edges _ hne⟩
  have hw : al.word ≠ [] := by
    obtain ⟨e, he, -⟩ := hreal
    exact List.ne_nil_of_mem he
  have hwords : ∃ it, ps_alignment_words al = some it := by
    unfold ps_alignment_words
    cases hq : al.word with
    | nil => exact absurd hq hw
    | cons a as => exact ⟨_, rfl⟩
  obtain ⟨it, hit⟩ := hwords
  have hlen := hyp_len_loop_some d al.word 0 hbase
  have hfill := hyp_fill_loop_some d (0 + (spaced (real_base_strings d al.word)).length + 1)
    al.word [] out_score hbase (by simp)
  have hsp : (spaced (real_base_strings d al.word)).length ≠ 0 := by
    cases hq : real_base_strings d al.word with
    | nil => exact absurd hq hne
    | cons a as => simp [spaced]
  unfold state_align_search_hyp
  simp only [hal, hit, hlen, hfill, List.nil_append, if_neg hsp]
  rw [← List.dropLast_eq_take, spaced_dropLast _ hne]
  exact ⟨_, _, rfl⟩

theorem hyp_fill_loop_score (d : Dict) (cap : Nat) :
    ∀ (ws : List Entry) (buf : CStr) (sc : Int) (r : CStr × Int),
      hyp_fill_loop d cap ws buf sc = some r →
      r.2 = ((ws.getLast?).map Entry.score).getD sc := by
  intro ws
  induction ws with
  | nil => intro buf sc r h; simp only [hyp_fill_loop] at h; cases h; rfl
  | cons e es ih =>
    intro buf sc r h
    have hlast : (((e :: es).getLast?).map Entry.score).getD sc
        = ((es.getLast?).map Entry.score).getD e.score := by
      rw [List.getLast?_cons]
      cases es.getLast? <;> simp
    rw [hlast]
    unfold hyp_fill_loop at h
    split at h
    · split at h
      · cases h
      · split at h
        · cases h
        · split at h
          · cases h
          · exact ih _ _ _ h
    · exact ih _ _ _ h

theorem hyp_string_inv (d : Dict) (s : SAS) (out_score : Int) (str : CStr) (t : SAS) (sc : Int)
    (h : state_align_search_hyp d s out_score = some (some str, t, sc)) :
    ∃ al hyp_len r, s.al = some al ∧ al.word ≠ [] ∧ hyp_len_loop d al.word 0 = some hyp_len ∧
      hyp_fill_loop d (hyp_len + 1) al.word [] out_score = some r ∧ sc = r.2 := by
  unfold state_align_search_hyp at h
  split at h
  · simp at h
  · rename_i al hal
    split at h
    · simp at h
    · rename_i it hit
      have hw : al.word ≠ [] := by
        intro hq
        simp [ps_alignment_words, hq] at hit
      split at h
      · simp at h
      · rename_i hyp_len hlen
        split at h
        · cases h
        · rename_i r hr
          split at h
          · cases h
          · simp only [Option.some.injEq, Prod.mk.injEq] at h
            exact ⟨al, hyp_len, r, hal, hw, hlen, hr, h.2.2.symm⟩

/-- C9 (hypothesis score, amended). Whenever `state_align_search_hyp` returns a
string, the score it leaves in `*out_score` is the score of the last word-level
entry of the alignment, whether that entry is a real word or an auxiliary one
excluded from the string. -/
theorem hyp_score_is_last_entry (d : Dict) (s : SAS) (out_score : Int) (str : CStr) (t : SAS)
    (sc : Int) (h : state_align_search_hyp d s out_score = some (some str, t, sc)) :
    ∃ al e, s.al = some al ∧ al.word.getLast? = some e ∧ sc = e.score := by
  obtain ⟨al, hyp_len, r, hal, hw, -, hr, hsc⟩ := hyp_string_inv d s out_score str t sc h
  have := hyp_fill_loop_score d (hyp_len + 1) al.word [] out_score r hr
  cases hq : al.word.getLast? with
  | none => exact absurd (List.getLast?_eq_none_iff.mp hq) hw
  | some e =>
    refine ⟨al, e, hal, hq, ?_⟩
    rw [hsc, this, hq]; rfl

/-- C9, counterexample. With a real word of score 5 followed by an auxiliary
unit of score 7, the function returns the string `go` and reports score 7, the
score of the excluded auxiliary entry, not 5, the score of the last real word. -/
theorem hyp_score_from_trailing_aux :
    (state_align_search_hyp toy_dict reported_search 0).map (fun r => (r.1, r.2.2))
        = some (some ['g', 'o'], 7) ∧
    ((trailing_aux_al.word.filter (fun e => toy_dict.real_word e.wid)).getLast?).map Entry.score
        = some 5 ∧ ¬ ((7 : Int) = 5) := by
  refine ⟨by decide, by decide, by decide⟩

theorem hyp_len_loop_none_iff (d : Dict) :
    ∀ (ws : List Entry) (n : Nat),
      hyp_len_loop d ws n = none ↔
        ∃ e ∈ ws, d.real_word e.wid = true ∧ d.basestr e.wid = none := by
  intro ws
  induction ws with
  | nil => intro n; simp [hyp_len_loop]
  | cons e es ih =>
    intro n
    unfold hyp_len_loop
    by_cases hr : d.real_word e.wid = true
    · rw [if_pos hr]
      cases hb : d.basestr e.wid with
      | none =>
        simp only [true_iff]
        exact ⟨e, List.mem_cons_self _ _, hr, hb⟩
      | some w =>
        simp only
        rw [ih]
        constructor
        · rintro ⟨x, hx, hx1, hx2⟩
          exact ⟨x, List.mem_cons_of_mem _ hx, hx1, hx2⟩
        · rintro ⟨x, hx, hx1, hx2⟩
          rcases List.mem_cons.mp hx with rfl | hx3
          · rw [hb] at hx2; cases hx2
          · exact ⟨x, hx3, hx1, hx2⟩
    · rw [if_neg hr, ih]
      constructor
      · rintro ⟨x, hx, hx1, hx2⟩
        exact ⟨x, List.mem_cons_of_mem _ hx, hx1, hx2⟩
      · rintro ⟨x, hx, hx1, hx2⟩
        rcases List.mem_cons.mp hx with rfl | hx3
        · exact absurd hx1 hr
        · exact ⟨x, hx3, hx1, hx2⟩

theorem seg_iter_none_iff (d : Dict) (s : SAS) :
    state_align_search_seg_iter d s = none ↔
      (s.al = none ∨ ∃ al, s.al = some al ∧ al.word = []) := by
  unfold state_align_search_seg_iter
  cases hal : s.al with
  | none => simp
  | some al =>
    cases hw : al.word with
    | nil => simp [ps_alignment_words, hw]
    | cons a as => simp [ps_alignment_words, hw]

theorem hyp_null_iff (d : Dict) (s : SAS) (out_score : Int) :
    (∃ t sc, state_align_search_hyp d s out_score = some (none, t, sc)) ↔
      (s.al = none ∨ ∃ al, s.al = some al ∧
        (al.word = [] ∨ ∃ e ∈ al.word, d.real_word e.wid = true ∧ d.basestr e.wid = none)) := by
  unfold state_align_search_hyp
  cases hal : s.al with
  | none => simp
  | some al =>
    cases hw : al.word with
    | nil => simp [ps_alignment_words, hw]
    | cons a as =>
      have hit : ps_alignment_words al = some { cur := a, rest := as } := by
        simp [ps_alignment_words, hw]
      simp only [hit, ← hw]
      cases hl : hyp_len_loop d al.word 0 with
      | none =>
        have := (hyp_len_loop_none_iff d al.word 0).mp hl
        simp only [false_or, Option.some.injEq, exists_eq_left', reduceCtorEq]
        constructor
        · intro _; exact Or.inr this
        · intro _; exact ⟨_, _, rfl⟩
      | some n =>
        have hno : ¬ ∃ e ∈ al.word, d.real_word e.wid = true ∧ d.basestr e.wid = none := by
          intro hex
          rw [(hyp_len_loop_none_iff d al.word 0).mpr hex] at hl
          cases hl
        have hwne : al.word ≠ [] := by rw [hw]; exact List.cons_ne_nil _ _
        simp only [false_or, Option.some.injEq, exists_eq_left', hno, hwne, or_self, iff_false,
          reduceCtorEq]
        rintro ⟨t, sc, h⟩
        split at h
        · cases h
        · split at h
          · cases h
          · simp at h

/-- C10 (reporting without a successful finish, amended). Neither reporter
consults whether `state_align_search_finish` ran or succeeded.
`state_align_search_seg_iter` returns `NULL` exactly when the search has no
alignment or the alignment has no word-level entry; `state_align_search_hyp`
returns `NULL` exactly in those cases or when a real word has no base string.
A failed `finish` leaves the search object as it was, so after it both
reporters give what they gave before, built from the entries as they stand. -/
theorem reporters_ignore_finish (d : Dict) (s : SAS) (out_score : Int) :
    (state_align_search_seg_iter d s = none ↔
      (s.al = none ∨ ∃ al, s.al = some al ∧ al.word = [])) ∧
    ((∃ t sc, state_align_search_hyp d s out_score = some (none, t, sc)) ↔
      (s.al = none ∨ ∃ al, s.al = some al ∧
        (al.word = [] ∨ ∃ e ∈ al.word, d.real_word e.wid = true ∧ d.basestr e.wid = none))) ∧
    (∀ t, state_align_search_finish s = some (-1, t) →
      state_align_search_hyp d t out_score = state_align_search_hyp d s out_score ∧
      state_align_search_seg_iter d t = state_align_search_seg_iter d s) := by
  refine ⟨seg_iter_none_iff d s, hyp_null_iff d s out_score, ?_⟩
  intro t ht
  have hts : t = s := by
    unfold state_align_search_finish at ht
    split at ht
    · cases ht
    · split at ht
      · simp only [Option.some.injEq, Prod.mk.injEq, true_and] at ht
        exact ht.symm
      · split at ht
        · cases ht
        · split at ht
          · cases ht
          · simp at ht
  rw [hts]
  exact ⟨rfl, rfl⟩

/-- C10, counterexample. On a search for which no frame was processed,
`state_align_search_finish` fails with `-1`, yet `state_align_search_hyp` still
returns the string `go` and `state_align_search_seg_iter` still returns a
segment, built from the unpopulated entry (start 0, end `0 + 0 - 1 = -1`). -/
theorem reporters_answer_without_finish :
    (state_align_search_finish unfinished_search).map Prod.fst = some (-1) ∧
    (state_align_search_hyp toy_dict unfinished_search 0).map (fun r => r.1)
      = some (some ['g', 'o']) ∧
    (state_align_search_seg_iter toy_dict unfinished_search).map (fun g => (g.sf, g.ef, g.wid))
      = some (0, -1, 1) := by
  refine ⟨by decide, by decide, by decide⟩

/-- C4, evaluation at the failing input. On `two_state_search` the backtrace
closes the segment of state 1 with score `-40 - (-25) = -15`, and closes the
segment of the initial state (frames 0 and 1) without writing its score: the
entry keeps the score 0 it had before, although the token recorded on the path
at the segment's last frame has score `-25`. -/
theorem finish_leaves_initial_score :
    (state_align_search_finish two_state_search).map
        (fun r => (r.1, r.2.al.map (fun al => al.state.map
          (fun e => (e.start, e.duration, e.score)))))
      = some (0, some [(0, 2, 0), (2, 1, -15)]) ∧
    two_state_search.tokens[1 * 2 + 1]? = some ⟨0, -25⟩ := by
  refine ⟨by decide, by decide⟩

/-! ## Instances of the hypotheses -/

/-- C1, witness: on `two_state_search` the backpointer chain is `1, 0, 0`; it
collapses to `1, 0`, the backtrace closes state 1 and then state 0, and the two
entries are contiguous. -/
theorem finish_entries_contiguous_witness :
    state_align_search_finish two_state_search = some (0, finished two_state_search) ∧
    backpointer_chain two_state_search = some [1, 0, 0] ∧
    collapse [1, 0, 0] = (List.range 2).reverse ∧
    ∃ al1 chain, (finished two_state_search).al = some al1 ∧
      backpointer_chain two_state_search = some chain ∧
      al1.state.length = 2 ∧
      (∃ e, al1.state.head? = some e ∧ e.start = 0) ∧
      (finish_writes two_state_search).map (List.map Prod.fst)
        = some (closed_ids chain ++ [0]) ∧
      (∀ i, i ≠ 0 → i ∉ chain → al1.state[i]? = [zero_entry, zero_entry][i]?) ∧
      (collapse chain = (List.range 2).reverse →
        ∀ i (hi : i + 1 < al1.state.length),
          (al1.state.get ⟨i, Nat.lt_of_succ_lt hi⟩).start
              + (al1.state.get ⟨i, Nat.lt_of_succ_lt hi⟩).duration
            = (al1.state.get ⟨i + 1, hi⟩).start) :=
  ⟨by decide, by decide, by decide,
    finish_entries_contiguous two_state_search (finished two_state_search)
      { word := [zero_entry], sseq := [zero_entry], state := [zero_entry, zero_entry],
        propagations := 0 } rfl (by decide)⟩

/-- C2, witness: `state_align_search_finish` succeeds on `two_state_search`,
whose last processed frame is 2, and its writes partition the frames `[0, 3)`. -/
theorem finish_writes_partition_witness :
    state_align_search_finish two_state_search = some (0, finished two_state_search) ∧
    ∃ ws : List (Nat × Entry), finish_writes two_state_search = some ws ∧
      (∃ al, two_state_search.al = some al ∧
        (finished two_state_search).al.map Alignment.state
          = some (ws.foldl (fun st p => st.set p.1 p.2) al.state)) ∧
      (∃ e, ws.head? = some e ∧ e.2.start + e.2.duration - 1 = ((2 : Nat) : Int)) ∧
      (∀ k (hk : k + 1 < ws.length),
        (ws.get ⟨k + 1, hk⟩).2.start + (ws.get ⟨k + 1, hk⟩).2.duration
          = (ws.get ⟨k, Nat.lt_of_succ_lt hk⟩).2.start) ∧
      (∀ e ∈ ws, 1 ≤ e.2.duration) ∧
      (∃ e, ws.getLast? = some e ∧ e.1 = 0 ∧ e.2.start = 0) :=
  ⟨by decide, finish_writes_partition two_state_search (finished two_state_search) (by decide)⟩

/-- C3, witness: on `unfinished_search` the final phone's exit backpointer is
still `-1`, read as `0xffff`, and `state_align_search_finish` returns `-1`
leaving the search object unchanged; on `two_state_search` the backpointer is
valid, the walk stays in range, and the function returns `0`. -/
theorem finish_fails_iff_invalid_witness :
    final_exit unfinished_search = some ⟨0xffff, WORST_SCORE⟩ ∧
    state_align_search_finish unfinished_search = some (-1, unfinished_search) ∧
    final_exit two_state_search = some ⟨1, -40⟩ ∧
    ∃ t, state_align_search_finish two_state_search = some (0, t) :=
  ⟨by decide,
    (finish_fails_iff_invalid unfinished_search ⟨0xffff, WORST_SCORE⟩ (by decide)).2.1 rfl,
    by decide,
    (finish_fails_iff_invalid two_state_search ⟨1, -40⟩ (by decide)).2.2.2 (by decide)
      { word := [zero_entry], sseq := [zero_entry], state := [zero_entry, zero_entry],
        propagations := 0 } rfl (by decide) (by decide)⟩

/-- C5, witness: the run on `late_al`; after five steps the second phone's
marker is above its end frame because the phone transition of frame 4 entered it. -/
theorem run_end_frame_unless_entered_witness :
    marker (run plain_collab invalid_hist (initial_search 1 late_al) 5) 1
        ≤ (run plain_collab invalid_hist (initial_search 1 late_al) 5).ef.getD 1 0 ∨
      (1 ≤ 1 ∧ ∃ k : Nat, k < 5 ∧
        marker (run plain_collab invalid_hist (initial_search 1 late_al) 5) 1 = (k : Int) + 1 ∧
        marker (run plain_collab invalid_hist (initial_search 1 late_al) (k + 1)) (1 - 1)
          = (k : Int) + 1 ∧
        (run plain_collab invalid_hist (initial_search 1 late_al) 5).sf.getD 1 0 ≤ (k : Int) + 1) :=
  run_end_frame_unless_entered plain_collab invalid_hist 1 late_al (initial_search 1 late_al)
    (by decide) (by decide) 5 1 (by decide)

/-- C6, witness: the run on `late_al`; after two steps the second phone is
marked for frame 2, its start frame. -/
theorem run_start_frame_respected_witness :
    marker (run plain_collab invalid_hist (initial_search 1 late_al) 2) 1 = 2 ∧
    (marker (run plain_collab invalid_hist (initial_search 1 late_al) 2) 1 = -1 ∨
      (run plain_collab invalid_hist (initial_search 1 late_al) 2).sf.getD 1 0
        ≤ marker (run plain_collab invalid_hist (initial_search 1 late_al) 2) 1) :=
  ⟨by decide,
    run_start_frame_respected plain_collab invalid_hist 1 late_al (initial_search 1 late_al)
      (by decide) 2 1 (by decide) (by decide)⟩

/-- C7, witness: the hinted phone of `late_al`, `(start, duration) = (2, 1)`,
gets the window `(2, 3)`. -/
theorem init_forced_windows_witness :
    (initial_search 1 late_al).sf[1]? = some 2 ∧ (initial_search 1 late_al).ef[1]? = some 3 :=
  ⟨(init_forced_windows 1 late_al (initial_search 1 late_al) (by decide) 1 (by decide)).1,
   (init_forced_windows 1 late_al (initial_search 1 late_al) (by decide) 1 (by decide)).2.1⟩

/-- C8, witness: with a real word followed by an auxiliary unit the hypothesis
is the single word `go`. -/
theorem hyp_joins_real_words_witness :
    (∃ t sc, state_align_search_hyp toy_dict reported_search 0
        = some (some (List.intercalate [' '] (real_base_strings toy_dict trailing_aux_al.word)),
            t, sc)) ∧
    List.intercalate [' '] (real_base_strings toy_dict trailing_aux_al.word) = ['g', 'o'] :=
  ⟨(hyp_joins_real_words toy_dict reported_search trailing_aux_al 0 rfl
      ⟨{ zero_entry with wid := 1, score := 5 }, by decide, by decide⟩ (by decide)).1,
   by decide⟩

/-- C9, witness: on `reported_search` the reported score is that of the last
word-level entry. -/
theorem hyp_score_is_last_entry_witness :
    ∃ al e, reported_search.al = some al ∧ al.word.getLast? = some e ∧ (7 : Int) = e.score :=
  hyp_score_is_last_entry toy_dict reported_search 0 ['g', 'o']
    { reported_search with hyp_str := some ['g', 'o'] } 7 (by decide)

/-! ## The segment iterator -/

theorem fill_iter_eq_seg_at (d : Dict) (g : Seg) (cur : Entry) (rest : List Entry) :
    state_align_search_fill_iter d { g with itor := { cur := cur, rest := rest } }
      = seg_at d cur rest := rfl

theorem seg_next_seg_at (d : Dict) (cur : Entry) (rest : List Entry) :
    state_align_search_seg_next d (seg_at d cur rest)
      = match rest with
        | [] => none
        | e :: es => some (seg_at d e es) := by
  cases rest <;> rfl

theorem seg_collect_seg_at (d : Dict) :
    ∀ (rest : List Entry) (cur : Entry) (fuel : Nat), rest.length < fuel →
      seg_collect d fuel (some (seg_at d cur rest)) = segs_from d (cur :: rest) := by
  intro rest
  induction rest with
  | nil =>
    intro cur fuel hf
    cases fuel with
    | zero => simp at hf
    | succ n =>
      simp only [seg_collect, seg_next_seg_at, segs_from]
      cases n <;> rfl
  | cons e es ih =>
    intro cur fuel hf
    cases fuel with
    | zero => simp at hf
    | succ n =>
      have hn : es.length < n := by simpa using hf
      simp only [seg_collect, seg_next_seg_at]
      rw [ih e n hn]
      rfl

theorem seg_sequence_eq (d : Dict) (s : SAS) (al : Alignment) (fuel : Nat)
    (hal : s.al = some al) (hf : al.word.length ≤ fuel) :
    seg_collect d fuel (state_align_search_seg_iter d s) = segs_from d al.word := by
  unfold state_align_search_seg_iter
  rw [hal]
  cases hw : al.word with
  | nil =>
    simp only [ps_alignment_words, hw, segs_from]
    cases fuel <;> rfl
  | cons e es =>
    simp only [ps_alignment_words, hw]
    have hfill : state_align_search_fill_iter d
        { sf := 0, ef := 0, ascr := 0, lscr := 0, text := none, wid := 0,
          itor := { cur := e, rest := es } } = seg_at d e es := rfl
    rw [hfill]
    exact seg_collect_seg_at d es e fuel (by rw [hw] at hf; simpa using hf)

theorem segs_from_length (d : Dict) : ∀ ws : List Entry, (segs_from d ws).length = ws.length := by
  intro ws
  induction ws with
  | nil => rfl
  | cons e es ih => simp [segs_from, ih]

theorem segs_from_report (d : Dict) :
    ∀ ws : List Entry, (segs_from d ws).map Seg.report = ws.map Entry.report := by
  intro ws
  induction ws with
  | nil => rfl
  | cons e es ih => simp [segs_from, ih, seg_at, Seg.report, Entry.report]

theorem segs_from_last (d : Dict) :
    ∀ (ws : List Entry) (g : Seg), (segs_from d ws).getLast? = some g →
      state_align_search_seg_next d g = none := by
  intro ws
  induction ws with
  | nil => intro g h; simp [segs_from] at h
  | cons e es ih =>
    intro g h
    cases es with
    | nil =>
      simp only [segs_from, List.getLast?_singleton, Option.some.injEq] at h
      rw [← h, seg_next_seg_at]
    | cons e2 es2 =>
      apply ih
      simpa [segs_from] using h

theorem segs_from_getElem? (d : Dict) :
    ∀ (ws : List Entry) (k : Nat),
      (segs_from d ws)[k]? = (ws[k]?).map (fun e => seg_at d e (ws.drop (k + 1))) := by
  intro ws
  induction ws with
  | nil => intro k; simp [segs_from]
  | cons e es ih =>
    intro k
    cases k with
    | zero => simp [segs_from]
    | succ k => simp [segs_from, ih]

/-- C11 (segment sequence, amended). The sequence produced by
`state_align_search_seg_iter` followed by repeated
`state_align_search_seg_next` contains, in alignment order, exactly one segment
per word-level entry of the alignment, whether the dictionary reports the entry
as a real word or not, and `state_align_search_seg_next` returns `NULL` after
the last one (so any fuel not below the number of entries gives the whole
sequence). -/
theorem seg_sequence_all_entries (d : Dict) (s : SAS) (al : Alignment) (fuel : Nat)
    (hal : s.al = some al) (hf : al.word.length ≤ fuel) :
    (seg_collect d fuel (state_align_search_seg_iter d s)).map Seg.wid
        = al.word.map Entry.wid ∧
    (seg_collect d fuel (state_align_search_seg_iter d s)).length = al.word.length ∧
    (∀ g, (seg_collect d fuel (state_align_search_seg_iter d s)).getLast? = some g →
      state_align_search_seg_next d g = none) := by
  rw [seg_sequence_eq d s al fuel hal hf]
  refine ⟨?_, segs_from_length d al.word, segs_from_last d al.word⟩
  have := congrArg (List.map (fun r : Int × Int × Int × Int × Int => r.1))
    (segs_from_report d al.word)
  simpa [List.map_map, Function.comp_def, Seg.report, Entry.report] using this

/-- C11, counterexample. With a real word (id 1) followed by an auxiliary unit
(id 3) the iterator reports two segments, one of them for the auxiliary unit,
although the alignment has a single real word. -/
theorem seg_sequence_reports_aux :
    (seg_collect toy_dict 5 (state_align_search_seg_iter toy_dict reported_search)).map Seg.wid
        = [1, 3] ∧
    toy_dict.real_word 3 = false ∧
    (trailing_aux_al.word.filter (fun e => toy_dict.real_word e.wid)).map Entry.wid = [1] := by
  refine ⟨by decide, by decide, by decide⟩

/-- C12 (segment fields). Every segment reported by the segment iterator for a
word-level entry carries that entry's word id, `sf = start`, `ef = start +
duration - 1`, `ascr = score` and `lscr = 0`; hence, when the word-level entries
of the alignment are contiguous (as a successful finish leaves them on a
contiguous alignment), each segment's `ef + 1` equals the next segment's `sf`. -/
theorem seg_fields_of_entries (d : Dict) (s : SAS) (al : Alignment) (fuel : Nat)
    (hal : s.al = some al) (hf : al.word.length ≤ fuel) :
    (seg_collect d fuel (state_align_search_seg_iter d s)).map
        (fun g => (g.wid, g.sf, g.ef, g.ascr, g.lscr))
      = al.word.map (fun e => (e.wid, e.start, e.start + e.duration - 1, e.score, (0 : Int))) ∧
    ((∀ k (hk : k + 1 < al.word.length),
        (al.word.get ⟨k, Nat.lt_of_succ_lt hk⟩).start
            + (al.word.get ⟨k, Nat.lt_of_succ_lt hk⟩).duration
          = (al.word.get ⟨k + 1, hk⟩).start) →
      ∀ k (hk : k + 1 < (seg_collect d fuel (state_align_search_seg_iter d s)).length),
        ((seg_collect d fuel (state_align_search_seg_iter d s)).get
            ⟨k, Nat.lt_of_succ_lt hk⟩).ef + 1
          = ((seg_collect d fuel (state_align_search_seg_iter d s)).get ⟨k + 1, hk⟩).sf) := by
  rw [seg_sequence_eq d s al fuel hal hf]
  refine ⟨segs_from_report d al.word, ?_⟩
  intro hc k hk
  have hk1 : k + 1 < al.word.length := by rw [segs_from_length] at hk; exact hk
  have h0 := segs_from_getElem? d al.word k
  have h1 := segs_from_getElem? d al.word (k + 1)
  rw [List.getElem?_eq_getElem (Nat.lt_of_succ_lt hk),
    List.getElem?_eq_getElem (Nat.lt_of_succ_lt hk1)] at h0
  rw [List.getElem?_eq_getElem hk, List.getElem?_eq_getElem hk1] at h1
  simp only [Option.map_some', Option.some.injEq] at h0 h1
  simp only [List.get_eq_getElem]
  rw [h0, h1]
  have := hc k hk1
  simp only [List.get_eq_getElem] at this
  simp only [seg_at]
  omega

/-- C13 (unknown word). When a real word of the alignment has no base string
in the dictionary, `state_align_search_hyp` returns `NULL`, leaves `*out_score`
as it was and changes nothing in the search object but the cached hypothesis
string, which is cleared. More generally, whatever it returns, the alignment
held by the search object afterwards is the one held before. -/
theorem hyp_unknown_word (d : Dict) (s : SAS) (al : Alignment) (out_score : Int)
    (hal : s.al = some al)
    (hunk : ∃ e ∈ al.word, d.real_word e.wid = true ∧ d.basestr e.wid = none) :
    state_align_search_hyp d s out_score = some (none, { s with hyp_str := none }, out_score) ∧
    (∀ (s1 : SAS) (sc1 : Int) (r : Option CStr × SAS × Int),
      state_align_search_hyp d s1 sc1 = some r → r.2.1.al = s1.al) := by
  constructor
  · have hw : al.word ≠ [] := by
      obtain ⟨e, he, -⟩ := hunk
      exact List.ne_nil_of_mem he
    have hl := (hyp_len_loop_none_iff d al.word 0).mpr hunk
    unfold state_align_search_hyp
    cases hq : al.word with
    | nil => exact absurd hq hw
    | cons a as =>
      simp only [hal, ps_alignment_words, hq]
      rw [← hq, hl]
  · intro s1 sc1 r hr
    unfold state_align_search_hyp at hr
    split at hr
    · cases hr; rfl
    · split at hr
      · cases hr; rfl
      · split at hr
        · cases hr; rfl
        · split at hr
          · cases hr
          · split at hr
            · cases hr
            · cases hr; rfl

/-! ## Boundaries do not depend on scores -/

theorem timing_match_eq (pe : Entry) :
    ∀ (F1 F2 : List Entry), F1.map Entry.timing = F2.map Entry.timing →
      Entry.timing (match F1 with
        | [] => pe
        | c :: cs =>
          { pe with
            start := (cs.map Entry.start).foldl min c.start
            duration := ((c :: cs).map Entry.duration).sum
            score := ((c :: cs).map Entry.score).sum })
      = Entry.timing (match F2 with
        | [] => pe
        | c :: cs =>
          { pe with
            start := (cs.map Entry.start).foldl min c.start
            duration := ((c :: cs).map Entry.duration).sum
            score := ((c :: cs).map Entry.score).sum }) := by
  intro F1 F2 h
  cases F1 with
  | nil =>
    cases F2 with
    | nil => rfl
    | cons c2 cs2 => simp at h
  | cons c1 cs1 =>
    cases F2 with
    | nil => simp at h
    | cons c2 cs2 =>
      simp only [List.map_cons, List.cons.injEq] at h
      obtain ⟨hc, hcs⟩ := h
      have hstart : cs1.map Entry.start = cs2.map Entry.start := by
        have := congrArg (List.map (fun t : Int × Int × Nat => t.1)) hcs
        simpa [List.map_map, Function.comp_def, Entry.timing] using this
      have hdur : cs1.map Entry.duration = cs2.map Entry.duration := by
        have := congrArg (List.map (fun t : Int × Int × Nat => t.2.1)) hcs
        simpa [List.map_map, Function.comp_def, Entry.timing] using this
      simp only [Entry.timing, Prod.mk.injEq] at hc
      simp only [Entry.timing, List.map_cons, List.sum_cons, hstart, hdur, hc.1, hc.2.1]

theorem propagate_level_timing (cs1 cs2 ps : List Entry)
    (h : cs1.map Entry.timing = cs2.map Entry.timing) :
    (propagate_level cs1 ps).map Entry.timing = (propagate_level cs2 ps).map Entry.timing := by
  unfold propagate_level
  rw [List.map_map, List.map_map]
  apply List.map_congr_left
  intro pe _
  simp only [Function.comp_def]
  apply timing_match_eq
  have hfil : ∀ cs : List Entry,
      (cs.filter (fun c => decide (c.parent = pe.1))).map Entry.timing
        = (cs.map Entry.timing).filter (fun t => decide (t.2.2 = pe.1)) := by
    intro cs
    rw [List.filter_map]
    rfl
  rw [hfil, hfil, h]

theorem propagate_timing (al1 al2 : Alignment) (hw : al1.word = al2.word)
    (hq : al1.sseq = al2.sseq) (hs : al1.state.map Entry.timing = al2.state.map Entry.timing) :
    (ps_alignment_propagate al1).word.map Entry.timing
        = (ps_alignment_propagate al2).word.map Entry.timing ∧
    (ps_alignment_propagate al1).sseq.map Entry.timing
        = (ps_alignment_propagate al2).sseq.map Entry.timing ∧
    (ps_alignment_propagate al1).state.map Entry.timing
        = (ps_alignment_propagate al2).state.map Entry.timing := by
  have h1 : (propagate_level al1.state al1.sseq).map Entry.timing
      = (propagate_level al2.state al2.sseq).map Entry.timing := by
    rw [hq]; exact propagate_level_timing _ _ _ hs
  refine ⟨?_, h1, hs⟩
  simp only [ps_alignment_propagate]
  rw [hw]
  exact propagate_level_timing _ _ _ h1

theorem span_of_timing (l1 l2 : List Entry) (h : l1.map Entry.timing = l2.map Entry.timing) :
    l1.map Entry.span = l2.map Entry.span := by
  have := congrArg (List.map (fun t : Int × Int × Nat => (t.1, t.2.1))) h
  simpa [List.map_map, Function.comp_def, Entry.timing, Entry.span] using this

theorem getElem?_id_of_map_eq (t1 t2 : List Hist) (h : t1.map Hist.id = t2.map Hist.id)
    (i : Nat) : (t1[i]?).map Hist.id = (t2[i]?).map Hist.id := by
  rw [← List.getElem?_map, ← List.getElem?_map, h]

theorem getElem?_timing_of_map_eq (l1 l2 : List Entry)
    (h : l1.map Entry.timing = l2.map Entry.timing) (i : Nat) :
    (l1[i]?).map Entry.timing = (l2[i]?).map Entry.timing := by
  rw [← List.getElem?_map, ← List.getElem?_map, h]

theorem backtrace_frame_agree (t1 t2 : List Hist) (n k : Nat) (w1 w2 : Walk)
    (ht : t1.map Hist.id = t2.map Hist.id) (hw : WalkAgree w1 w2) :
    OptAgree (backtrace_frame t1 n k w1) (backtrace_frame t2 n k w2) := by
  obtain ⟨hc, hl, hf, hs⟩ := hw
  have hcur := getElem?_id_of_map_eq t1 t2 ht (k * n + w1.cur.id)
  unfold backtrace_frame
  rw [← hc]
  cases h1 : t1[k * n + w1.cur.id]? with
  | none =>
    rw [h1] at hcur
    cases h2 : t2[k * n + w1.cur.id]? with
    | none => trivial
    | some c2 => rw [h2] at hcur; simp at hcur
  | some c1 =>
    rw [h1] at hcur
    cases h2 : t2[k * n + w1.cur.id]? with
    | none => rw [h2] at hcur; simp at hcur
    | some c2 =>
      rw [h2] at hcur
      simp only [Option.map_some', Option.some.injEq] at hcur
      simp only
      rw [← hl, ← hcur]
      by_cases hne : c1.id ≠ w1.last.id
      · rw [if_pos hne, if_pos hne]
        have hst := getElem?_timing_of_map_eq _ _ hs w1.last.id
        cases e1 : w1.state[w1.last.id]? with
        | none =>
          rw [e1] at hst
          cases e2 : w2.state[w1.last.id]? with
          | none => trivial
          | some x2 => rw [e2] at hst; simp at hst
        | some x1 =>
          rw [e1] at hst
          cases e2 : w2.state[w1.last.id]? with
          | none => rw [e2] at hst; simp at hst
          | some x2 =>
            rw [e2] at hst
            simp only [Option.map_some', Option.some.injEq, Entry.timing, Prod.mk.injEq] at hst
            refine ⟨hcur, hcur, rfl, ?_⟩
            simp only [List.map_set, hs, Entry.timing, hf, hst.2.2]
      · rw [if_neg hne, if_neg hne]
        exact ⟨hcur, hl, hf, hs⟩

theorem backtrace_loop_agree (t1 t2 : List Hist) (n : Nat)
    (ht : t1.map Hist.id = t2.map Hist.id) :
    ∀ (k : Nat) (w1 w2 : Walk), WalkAgree w1 w2 →
      OptAgree (backtrace_loop t1 n k w1) (backtrace_loop t2 n k w2) := by
  intro k
  induction k with
  | zero => intro w1 w2 hw; exact hw
  | succ k ih =>
    intro w1 w2 hw
    have hfr := backtrace_frame_agree t1 t2 n k w1 w2 ht hw
    simp only [backtrace_loop]
    cases h1 : backtrace_frame t1 n k w1 with
    | none =>
      rw [h1] at hfr
      cases h2 : backtrace_frame t2 n k w2 with
      | none => trivial
      | some x2 => rw [h2] at hfr; exact hfr.elim
    | some x1 =>
      rw [h1] at hfr
      cases h2 : backtrace_frame t2 n k w2 with
      | none => rw [h2] at hfr; exact hfr.elim
      | some x2 => rw [h2] at hfr; exact ih x1 x2 hfr

theorem backtrace_close_agree (w1 w2 : Walk) (hw : WalkAgree w1 w2) :
    OptAgree (backtrace_close w1) (backtrace_close w2) := by
  obtain ⟨hc, hl, hf, hs⟩ := hw
  have hst := getElem?_timing_of_map_eq _ _ hs 0
  unfold backtrace_close
  cases e1 : w1.state[0]? with
  | none =>
    rw [e1] at hst
    cases e2 : w2.state[0]? with
    | none => trivial
    | some x2 => rw [e2] at hst; simp at hst
  | some x1 =>
    rw [e1] at hst
    cases e2 : w2.state[0]? with
    | none => rw [e2] at hst; simp at hst
    | some x2 =>
      rw [e2] at hst
      simp only [Option.map_some', Option.some.injEq, Entry.timing, Prod.mk.injEq] at hst
      refine ⟨hc, hl, hf, ?_⟩
      simp only [List.map_set, hs, Entry.timing, hf, hst.2.2]

theorem finish_walk_agree (s1 s2 : SAS) (al : Alignment) (l1 l2 : Hist)
    (hn : s1.n_emit_state = s2.n_emit_state) (hf : s1.frame = s2.frame)
    (ht : s1.tokens.map Hist.id = s2.tokens.map Hist.id) (hl : l1.id = l2.id) :
    OptAgree (finish_walk s1 al l1) (finish_walk s2 al l2) := by
  have hloop := backtrace_loop_agree s1.tokens s2.tokens s1.n_emit_state ht s1.frame
    { cur := l1, last := l1, last_frame := (s1.frame : Int) + 1, state := al.state, written := [] }
    { cur := l2, last := l2, last_frame := (s1.frame : Int) + 1, state := al.state, written := [] }
    ⟨hl, hl, rfl, rfl⟩
  unfold finish_walk
  rw [← hn, ← hf]
  cases h1 : backtrace_loop s1.tokens s1.n_emit_state s1.frame
      { cur := l1, last := l1, last_frame := (s1.frame : Int) + 1, state := al.state,
        written := [] } with
  | none =>
    rw [h1] at hloop
    cases h2 : backtrace_loop s2.tokens s1.n_emit_state s1.frame
        { cur := l2, last := l2, last_frame := (s1.frame : Int) + 1, state := al.state,
          written := [] } with
    | none => trivial
    | some x2 => rw [h2] at hloop; exact hloop.elim
  | some x1 =>
    rw [h1] at hloop
    cases h2 : backtrace_loop s2.tokens s1.n_emit_state s1.frame
        { cur := l2, last := l2, last_frame := (s1.frame : Int) + 1, state := al.state,
          written := [] } with
    | none => rw [h2] at hloop; exact hloop.elim
    | some x2 => rw [h2] at hloop; exact backtrace_close_agree x1 x2 hloop

/-- C14 (boundaries depend only on backpointers). For two search objects with
the same alignment, table width and last frame, whose token histories agree on
the origin id of every slot and whose final phones have the same exit
backpointer, whatever the recorded scores are, `state_align_search_finish`
behaves alike (same fault, same return code) and leaves identical `start` and
`duration` values in every entry of every level of the alignment. -/
theorem finish_boundaries_ignore_scores (s1 s2 : SAS) (hal : s1.al = s2.al)
    (hn : s1.n_emit_state = s2.n_emit_state) (hf : s1.frame = s2.frame)
    (hid : (final_exit s1).map Hist.id = (final_exit s2).map Hist.id)
    (ht : s1.tokens.map Hist.id = s2.tokens.map Hist.id) :
    (state_align_search_finish s1).map (fun r => (r.1, all_spans r.2))
      = (state_align_search_finish s2).map (fun r => (r.1, all_spans r.2)) := by
  unfold state_align_search_finish
  cases h1 : final_exit s1 with
  | none =>
    rw [h1] at hid
    cases h2 : final_exit s2 with
    | none => rfl
    | some l2 => rw [h2] at hid; simp at hid
  | some l1 =>
    rw [h1] at hid
    cases h2 : final_exit s2 with
    | none => rw [h2] at hid; simp at hid
    | some l2 =>
      rw [h2] at hid
      simp only [Option.map_some', Option.some.injEq] at hid
      simp only
      rw [← hid]
      by_cases hinv : l1.id = 0xffff
      · rw [if_pos hinv, if_pos hinv]
        simp only [Option.map_some', all_spans, hal]
      · rw [if_neg hinv, if_neg hinv, ← hal]
        cases ha : s1.al with
        | none => rfl
        | some al =>
          simp only
          have hag := finish_walk_agree s1 s2 al l1 l2 hn hf ht hid
          cases w1 : finish_walk s1 al l1 with
          | none =>
            rw [w1] at hag
            cases w2 : finish_walk s2 al l2 with
            | none => rfl
            | some x2 => rw [w2] at hag; exact hag.elim
          | some x1 =>
            rw [w1] at hag
            cases w2 : finish_walk s2 al l2 with
            | none => rw [w2] at hag; exact hag.elim
            | some x2 =>
              rw [w2] at hag
              obtain ⟨-, -, -, hst⟩ := hag
              obtain ⟨p1, p2, p3⟩ := propagate_timing
                { al with state := x1.state } { al with state := x2.state } rfl rfl hst
              simp only [Option.map_some', all_spans, Option.some.injEq, Prod.mk.injEq, true_and]
              exact ⟨span_of_timing _ _ p1, span_of_timing _ _ p2, span_of_timing _ _ p3⟩

/-! ## Pruning and phone transition, function by function -/

theorem prune_hmm_eq (ef : List Int) (f i : Nat) (h : Hmm) :
    prune_hmm ef f i h
      = if (f : Int) ≤ h.frame ∧ (f : Int) + 1 ≤ ef.getD i 0
        then { h with frame := (f : Int) + 1 } else h := by
  unfold prune_hmm
  simp only
  by_cases h1 : h.frame < (f : Int)
  · rw [if_pos h1, if_neg (by omega)]
  · rw [if_neg h1]
    by_cases h2 : (f : Int) + 1 > ef.getD i 0
    · rw [if_pos h2, if_neg (by omega)]
    · rw [if_neg h2, if_pos ⟨by omega, by omega⟩]

/-- C15 (pruning rule). After `prune_hmms(f)`, instance `i` has its marker set
to `f + 1` when its marker before the call was at least `f` and `f + 1 <=
end_frame[i]`, and is otherwise exactly as before; no other field of the
instance, no other instance and nothing else in the search object changes. -/
theorem prune_hmms_rule (s : SAS) (f i : Nat) :
    (prune_hmms s f).hmms[i]?
        = (s.hmms[i]?).map (fun h =>
            if (f : Int) ≤ h.frame ∧ (f : Int) + 1 ≤ s.ef.getD i 0
            then { h with frame := (f : Int) + 1 } else h) ∧
    (prune_hmms s f).hmms.length = s.hmms.length ∧
    { prune_hmms s f with hmms := s.hmms } = s := by
  refine ⟨?_, prune_loop_length s.ef f s.hmms 0, rfl⟩
  simp only [prune_hmms, prune_loop_getElem?, Nat.zero_add]
  cases s.hmms[i]? with
  | none => rfl
  | some h => simp only [Option.map_some', prune_hmm_eq]

theorem transition_pair_eq (sf : List Int) (f i : Nat) (hmm nhmm : Hmm) :
    transition_pair sf f i hmm nhmm
      = if hmm.frame = (f : Int) + 1 ∧ sf.getD (i + 1) 0 ≤ (f : Int) + 1 ∧
            (nhmm.frame < (f : Int) ∨ hmm.out_score > hmm_in_score nhmm)
        then hmm_enter nhmm hmm.out_score hmm.out_history ((f : Int) + 1) else nhmm := by
  unfold transition_pair
  simp only
  by_cases h1 : hmm.frame = (f : Int) + 1
  · rw [if_neg (not_not.mpr h1)]
    by_cases h2 : (f : Int) + 1 < sf.getD (i + 1) 0
    · rw [if_pos h2, if_neg (by intro hc; omega)]
    · rw [if_neg h2]
      by_cases h3 : nhmm.frame < (f : Int) ∨ hmm.out_score > hmm_in_score nhmm
      · rw [if_pos h3, if_pos ⟨h1, by omega, h3⟩]
      · rw [if_neg h3, if_neg (fun hc => h3 hc.2.2)]
  · rw [if_pos h1, if_neg (fun hc => h1 hc.1)]

theorem transition_all_succ (sf : List Int) (f : Nat) (hs : List Hmm) (i : Nat)
    (hi : i + 1 < hs.length) :
    ∃ p, (transition_all sf f hs)[i]? = some p ∧
      (transition_all sf f hs)[i + 1]?
        = some (transition_pair sf f i p (hs.get ⟨i + 1, hi⟩)) := by
  cases hs with
  | nil => simp at hi
  | cons h rest =>
    have hir : i < rest.length := by simpa using hi
    obtain ⟨p, hp1, hp2⟩ := transition_loop_succ sf f rest 0 h i hir
    refine ⟨p, hp1, ?_⟩
    simp only [transition_all, hp2, Nat.zero_add]
    rfl

theorem transition_all_zero (sf : List Int) (f : Nat) (hs : List Hmm) :
    (transition_all sf f hs)[0]? = hs[0]? := by
  cases hs with
  | nil => rfl
  | cons h rest => simp [transition_all, transition_loop_zero]

/-- C16 (phone transition rule). After `phone_transition(f)` the first instance
is unchanged and, for every instance `i` except the last, instance `i + 1` is
the result of processing the pair `(i, i + 1)` with instance `i` as the pass
left it (`p`) and instance `i + 1` as it was: it is entered, with incoming score
and backpointer those of the exit of `p` and marker `f + 1`, exactly when
`marker(p) = f + 1`, `f + 1 >= start_frame[i + 1]` and the successor was
inactive (marker below `f`) or the exit score of `p` is strictly better than
its incoming score; otherwise it is unchanged. The number of instances and
every other field of the search object are unchanged. -/
theorem phone_transition_rule (s : SAS) (f : Nat) :
    (phone_transition s f).hmms.length = s.hmms.length ∧
    (phone_transition s f).hmms[0]? = s.hmms[0]? ∧
    (∀ i (hi : i + 1 < s.hmms.length),
      ∃ p, (phone_transition s f).hmms[i]? = some p ∧
        (phone_transition s f).hmms[i + 1]?
          = some (if p.frame = (f : Int) + 1 ∧ s.sf.getD (i + 1) 0 ≤ (f : Int) + 1 ∧
                    ((s.hmms.get ⟨i + 1, hi⟩).frame < (f : Int) ∨
                      p.out_score > hmm_in_score (s.hmms.get ⟨i + 1, hi⟩))
                  then hmm_enter (s.hmms.get ⟨i + 1, hi⟩) p.out_score p.out_history
                    ((f : Int) + 1)
                  else s.hmms.get ⟨i + 1, hi⟩)) ∧
    { phone_transition s f with hmms := s.hmms } = s := by
  refine ⟨transition_all_length s.sf f s.hmms, transition_all_zero s.sf f s.hmms, ?_, rfl⟩
  intro i hi
  obtain ⟨p, hp1, hp2⟩ := transition_all_succ s.sf f s.hmms i hi
  exact ⟨p, hp1, by rw [← transition_pair_eq]; exact hp2⟩

theorem transition_pair_keeps (sf : List Int) (f i : Nat) (hmm nhmm : Hmm) :
    (transition_pair sf f i hmm nhmm).out_score = nhmm.out_score ∧
    (transition_pair sf f i hmm nhmm).out_history = nhmm.out_history ∧
    (nhmm.frame = (f : Int) + 1 → (transition_pair sf f i hmm nhmm).frame = (f : Int) + 1) := by
  rw [transition_pair_eq]
  split
  · exact ⟨rfl, rfl, fun _ => rfl⟩
  · exact ⟨rfl, rfl, fun h => h⟩

/-- The phone transition leaves the exit score and exit backpointer of every
instance as they were, and an instance marked for `f + 1` stays so. -/
theorem transition_all_keeps (sf : List Int) (f : Nat) (hs : List Hmm) (j : Nat) (h : Hmm)
    (hj : hs[j]? = some h) :
    ∃ p, (transition_all sf f hs)[j]? = some p ∧ p.out_score = h.out_score ∧
      p.out_history = h.out_history ∧ (h.frame = (f : Int) + 1 → p.frame = (f : Int) + 1) := by
  cases j with
  | zero =>
    exact ⟨h, by rw [transition_all_zero]; exact hj, rfl, rfl, fun hh => hh⟩
  | succ j =>
    obtain ⟨hlt, hget⟩ := List.getElem?_eq_some.mp hj
    obtain ⟨p, -, hp2⟩ := transition_all_succ sf f hs j hlt
    have hk := transition_pair_keeps sf f j p (hs.get ⟨j + 1, hlt⟩)
    have hg : hs.get ⟨j + 1, hlt⟩ = h := by rw [List.get_eq_getElem]; exact hget
    rw [hg] at hk hp2
    exact ⟨_, hp2, hk.1, hk.2.1, hk.2.2⟩

/-- C20 (same-pass cascade). If instance `i` is marked for `f + 1`, the start
frames of `i + 1` and `i + 2` are not after `f + 1`, and both `i + 1` and
`i + 2` are inactive (markers below `f`), then one call of `phone_transition(f)`
enters `i + 1` from the exit of `i` and, in the same pass, enters `i + 2` from
the exit score and exit backpointer that `i + 1` had before the call. -/
theorem phone_transition_cascade (s : SAS) (f i : Nat) (h0 h1 h2 : Hmm)
    (g0 : s.hmms[i]? = some h0) (g1 : s.hmms[i + 1]? = some h1)
    (g2 : s.hmms[i + 2]? = some h2)
    (m0 : h0.frame = (f : Int) + 1)
    (w1 : s.sf.getD (i + 1) 0 ≤ (f : Int) + 1) (w2 : s.sf.getD (i + 2) 0 ≤ (f : Int) + 1)
    (m1 : h1.frame < (f : Int)) (m2 : h2.frame < (f : Int)) :
    (phone_transition s f).hmms[i + 1]?
        = some (hmm_enter h1 h0.out_score h0.out_history ((f : Int) + 1)) ∧
    (phone_transition s f).hmms[i + 2]?
        = some (hmm_enter h2 h1.out_score h1.out_history ((f : Int) + 1)) := by
  obtain ⟨hlt1, hget1⟩ := List.getElem?_eq_some.mp g1
  obtain ⟨hlt2, hget2⟩ := List.getElem?_eq_some.mp g2
  have hg1 : s.hmms.get ⟨i + 1, hlt1⟩ = h1 := by rw [List.get_eq_getElem]; exact hget1
  have hg2 : s.hmms.get ⟨i + 1 + 1, hlt2⟩ = h2 := by rw [List.get_eq_getElem]; exact hget2
  obtain ⟨p0, hp0, hs0, hh0, hf0⟩ := transition_all_keeps s.sf f s.hmms i h0 g0
  obtain ⟨q0, hq0, hq1⟩ := transition_all_succ s.sf f s.hmms i hlt1
  rw [hp0] at hq0
  cases hq0
  rw [hg1, transition_pair_eq, if_pos ⟨hf0 m0, w1, Or.inl m1⟩, hs0, hh0] at hq1
  obtain ⟨q1, hq2, hq3⟩ := transition_all_succ s.sf f s.hmms (i + 1) hlt2
  rw [hq1] at hq2
  cases hq2
  rw [hg2, transition_pair_eq,
    if_pos ⟨rfl, w2, Or.inl m2⟩] at hq3
  exact ⟨hq1, hq3⟩

/-! ## Active-set agreement -/

theorem evaluate_loop_getElem? (c : Collab) (senscr : List Int) (f : Nat) :
    ∀ (hs : List Hmm) (bs : Int) (i : Nat),
      (evaluate_loop c senscr f hs bs).1[i]?
        = (hs[i]?).map (fun h =>
            if h.frame < (f : Int) then h else (hmm_vit_eval c senscr h).1) := by
  intro hs
  induction hs with
  | nil => intro bs i; simp [evaluate_loop]
  | cons h hs ih =>
    intro bs i
    unfold evaluate_loop
    by_cases hf : h.frame < (f : Int)
    · rw [if_pos hf]
      cases i with
      | zero => simp [hf]
      | succ i => simp [ih]
    · rw [if_neg hf]
      cases i with
      | zero => simp [hf]
      | succ i => simp [ih]

theorem mem_step_activated (s : SAS) (f i : Nat) :
    i ∈ step_activated s f ↔ i < s.hmms.length ∧ marker s i = (f : Int) := by
  simp [step_activated, List.mem_filter]

theorem mem_step_evaluated (s : SAS) (f i : Nat) :
    i ∈ step_evaluated s f ↔ i < s.hmms.length ∧ ¬ (marker s i < (f : Int)) := by
  simp [step_evaluated, List.mem_filter]

/-- C19 (active-set agreement). In every run (`init`, `start`, then `step` for
frames `0, 1, 2, ...` in order), every marker is at most `f` when `step(f)`
begins and at most `f + 1` when it ends; so the instances `evaluate_hmms`
updates at frame `f` (marker not below `f`) are exactly those whose marker
equals `f`, the ones `step` activated for acoustic scoring: on the instance
vector of the run (renormalised or not), `evaluate_hmms` applies the Viterbi
update to an instance exactly when it was activated and leaves every other
instance as it is. -/
theorem run_active_set_agreement (c : Collab) (junk : Hist) (nstate : Nat) (al : Alignment)
    (s0 : SAS) (h : state_align_search_init nstate true al = some s0) (n : Nat) :
    (∀ i, i < al.sseq.length →
      marker (run c junk s0 n) i ≤ (n : Int) ∧
      marker (run c junk s0 (n + 1)) i ≤ (n : Int) + 1) ∧
    step_evaluated (run c junk s0 n) n = step_activated (run c junk s0 n) n ∧
    (∀ i, i ∈ step_evaluated (run c junk s0 n) n ↔
      (i < al.sseq.length ∧ marker (run c junk s0 n) i = (n : Int))) ∧
    (∀ (s1 : SAS) (senscr : List Int) (i : Nat),
      s1.hmms.map Hmm.frame = (run c junk s0 n).hmms.map Hmm.frame →
      (evaluate_hmms c s1 senscr n).1.hmms[i]?
        = (s1.hmms[i]?).map (fun hmm =>
            if i ∈ step_activated (run c junk s0 n) n
            then (hmm_vit_eval c senscr hmm).1 else hmm)) := by
  have hN : s0.hmms.length = al.sseq.length := by
    rw [init_closed nstate al s0 h]; simp
  have hlen : (run c junk s0 n).hmms.length = al.sseq.length := by
    rw [(run_fields c junk s0 n).2.2, hN]
  have hle : ∀ i, i < al.sseq.length → marker (run c junk s0 n) i ≤ (n : Int) :=
    fun i hi => run_marker_le c junk nstate al s0 h n i hi
  have hmem : ∀ i, i ∈ step_evaluated (run c junk s0 n) n ↔
      (i < al.sseq.length ∧ marker (run c junk s0 n) i = (n : Int)) := by
    intro i
    rw [mem_step_evaluated, hlen]
    constructor
    · rintro ⟨hi, hm⟩
      exact ⟨hi, by have := hle i hi; omega⟩
    · rintro ⟨hi, hm⟩
      exact ⟨hi, by omega⟩
  refine ⟨fun i hi => ⟨hle i hi, ?_⟩, ?_, hmem, ?_⟩
  · have := run_marker_le c junk nstate al s0 h (n + 1) i hi
    push_cast at this
    exact this
  · unfold step_evaluated step_activated
    apply List.filter_congr
    intro i hi
    have hi1 : i < al.sseq.length := by
      rw [← hlen]; exact List.mem_range.mp hi
    have := hle i hi1
    simp only [decide_eq_decide]
    omega
  · intro s1 senscr i hfr
    simp only [evaluate_hmms, evaluate_loop_getElem?]
    cases hg : s1.hmms[i]? with
    | none => rfl
    | some hmm =>
      simp only [Option.map_some', Option.some.injEq]
      obtain ⟨hi1, -⟩ := List.getElem?_eq_some.mp hg
      have hl1 : s1.hmms.length = (run c junk s0 n).hmms.length := by
        have := congrArg List.length hfr
        simpa using this
      have hmk : marker (run c junk s0 n) i = hmm.frame := by
        unfold marker
        rw [← hfr]
        exact frame_of_getElem? _ _ _ hg
      have hi2 : i < al.sseq.length := by omega
      have hle1 := hle i hi2
      by_cases hact : i ∈ step_activated (run c junk s0 n) n
      · rw [if_pos hact]
        have := ((mem_step_activated _ _ _).mp hact).2
        rw [if_neg (by omega)]
      · rw [if_neg hact]
        have hne : marker (run c junk s0 n) i ≠ (n : Int) := by
          intro hc
          exact hact ((mem_step_activated _ _ _).mpr ⟨by omega, hc⟩)
        rw [if_pos (by omega)]

/-! ## The token stack -/

theorem memset_ff_length : ∀ (n base : Nat) (T : List Hist),
    (memset_ff base n T).length = T.length := by
  intro n
  induction n with
  | zero => intro base T; rfl
  | succ n ih => intro base T; simp only [memset_ff]; rw [ih, List.length_set]

theorem memset_ff_getElem? : ∀ (n base : Nat) (T : List Hist) (k : Nat),
    (memset_ff base n T)[k]?
      = if base ≤ k ∧ k < base + n ∧ k < T.length then some invalid_hist else T[k]? := by
  intro n
  induction n with
  | zero =>
    intro base T k
    simp only [memset_ff]
    rw [if_neg (by omega)]
  | succ n ih =>
    intro base T k
    simp only [memset_ff]
    rw [ih, List.length_set, List.getElem?_set]
    by_cases hk : k < T.length
    · by_cases hb : base = k
      · subst hb
        rw [if_neg (by omega), if_pos rfl, if_pos hk, if_pos ⟨by omega, by omega, hk⟩]
      · rw [if_neg hb]
        by_cases h1 : base + 1 ≤ k ∧ k < base + 1 + n ∧ k < T.length
        · rw [if_pos h1, if_pos ⟨by omega, by omega, hk⟩]
        · rw [if_neg h1, if_neg (by omega)]
    · have hnone : T[k]? = none := List.getElem?_eq_none (by omega)
      rw [if_neg (by omega : ¬ (base + 1 ≤ k ∧ k < base + 1 + n ∧ k < T.length)),
        if_neg (by omega : ¬ (base ≤ k ∧ k < base + (n + 1) ∧ k < T.length)), hnone]
      by_cases hb : base = k
      · rw [if_pos hb, if_neg (by omega)]
      · rw [if_neg hb]

/-- The reallocation step of `extend_tokenstack` on a well-formed stack: the
old records are kept and the array holds at least the frames up to `f`. -/
theorem extend_realloc (junk : Hist) (s : SAS) (f : Nat)
    (hwf : s.tokens.length = s.n_emit_state * s.n_fr_alloc) :
    ∃ T A, extend_tokenstack junk s f
        = { s with n_fr_alloc := A, tokens := memset_ff (f * s.n_emit_state) s.n_emit_state T } ∧
      f < A ∧ s.n_fr_alloc ≤ A ∧ T.length = s.n_emit_state * A ∧
      f * s.n_emit_state + s.n_emit_state ≤ T.length ∧
      (∀ k, k < s.tokens.length → T[k]? = s.tokens[k]?) := by
  by_cases hge : f ≥ s.n_fr_alloc
  · have hle : s.tokens.length ≤ s.n_emit_state * (f + TOKEN_STEP + 1) := by
      rw [hwf]; exact Nat.mul_le_mul_left _ (by omega)
    refine ⟨s.tokens.take (s.n_emit_state * (f + TOKEN_STEP + 1)) ++
        List.replicate (s.n_emit_state * (f + TOKEN_STEP + 1) - s.tokens.length) junk,
      f + TOKEN_STEP + 1, ?_, by omega, by omega, ?_, ?_, ?_⟩
    · simp only [extend_tokenstack, if_pos hge]
    · rw [List.take_of_length_le hle, List.length_append, List.length_replicate]; omega
    · rw [List.take_of_length_le hle, List.length_append, List.length_replicate]
      have : s.n_emit_state * (f + TOKEN_STEP + 1)
          = f * s.n_emit_state + s.n_emit_state + TOKEN_STEP * s.n_emit_state := by ring
      omega
    · intro k hk
      rw [List.take_of_length_le hle, List.getElem?_append_left hk]
  · refine ⟨s.tokens, s.n_fr_alloc, ?_, by omega, le_refl _, hwf, ?_, fun k _ => rfl⟩
    · simp only [extend_tokenstack, if_neg hge]
    · rw [hwf]
      have h1 : s.n_emit_state * (f + 1) ≤ s.n_emit_state * s.n_fr_alloc :=
        Nat.mul_le_mul_left _ (by omega)
      have h2 : s.n_emit_state * (f + 1) = f * s.n_emit_state + s.n_emit_state := by ring
      omega

/-- C18 (token stack growth). On a stack whose array holds exactly the
allocated frames, after `extend_tokenstack(f)` the allocated frame count
exceeds `f` and is not smaller than before, the array again holds exactly the
allocated frames, every slot of frame `f` holds the record left by the `0xff`
fill (id `0xffff`), and every record of every other frame that existed before
the call is unchanged. Nothing else in the search object changes. -/
theorem extend_tokenstack_rule (junk : Hist) (s : SAS) (f : Nat)
    (hwf : s.tokens.length = s.n_emit_state * s.n_fr_alloc) :
    f < (extend_tokenstack junk s f).n_fr_alloc ∧
    s.n_fr_alloc ≤ (extend_tokenstack junk s f).n_fr_alloc ∧
    (extend_tokenstack junk s f).tokens.length
      = s.n_emit_state * (extend_tokenstack junk s f).n_fr_alloc ∧
    (∀ j, j < s.n_emit_state →
      (extend_tokenstack junk s f).tokens[f * s.n_emit_state + j]? = some invalid_hist) ∧
    invalid_hist.id = 0xffff ∧
    (∀ g j, g ≠ f → g < s.n_fr_alloc → j < s.n_emit_state →
      (extend_tokenstack junk s f).tokens[g * s.n_emit_state + j]?
        = s.tokens[g * s.n_emit_state + j]?) ∧
    { extend_tokenstack junk s f with tokens := s.tokens, n_fr_alloc := s.n_fr_alloc } = s := by
  obtain ⟨T, A, heq, hfA, hAle, hTlen, hTf, hTold⟩ := extend_realloc junk s f hwf
  rw [heq]
  refine ⟨hfA, hAle, ?_, ?_, rfl, ?_, rfl⟩
  · simp only [memset_ff_length, hTlen]
  · intro j hj
    simp only [memset_ff_getElem?]
    rw [if_pos ⟨by omega, by omega, by omega⟩]
  · intro g j hg hgA hj
    simp only [memset_ff_getElem?]
    have hin : g * s.n_emit_state + j < s.tokens.length := by
      rw [hwf]
      have h1 : s.n_emit_state * (g + 1) ≤ s.n_emit_state * s.n_fr_alloc :=
        Nat.mul_le_mul_left _ (by omega)
      have h2 : s.n_emit_state * (g + 1) = g * s.n_emit_state + s.n_emit_state := by ring
      omega
    have hout : ¬ (f * s.n_emit_state ≤ g * s.n_emit_state + j ∧
        g * s.n_emit_state + j < f * s.n_emit_state + s.n_emit_state ∧
        g * s.n_emit_state + j < T.length) := by
      rintro ⟨h1, h2, -⟩
      rcases Nat.lt_or_gt_of_ne hg with hlt | hgt
      · have h3 : (g + 1) * s.n_emit_state ≤ f * s.n_emit_state :=
          Nat.mul_le_mul_right _ (by omega)
        have h4 : (g + 1) * s.n_emit_state = g * s.n_emit_state + s.n_emit_state := by ring
        omega
      · have h3 : (f + 1) * s.n_emit_state ≤ g * s.n_emit_state :=
          Nat.mul_le_mul_right _ (by omega)
        have h4 : (f + 1) * s.n_emit_state = f * s.n_emit_state + s.n_emit_state := by ring
        omega
    rw [if_neg hout]
    exact hTold _ hin

/-- What the inner loop of `record_transitions` does for local states
`j, ..., j + m - 1` of instance `i`. -/
theorem record_states_spec (base S i : Nat) :
    ∀ (m j : Nat) (T : List Hist) (h : Hmm),
      (record_states base S i j m T h).1.length = T.length ∧
      (∀ k, (k < base + (i * S + j) ∨ base + (i * S + j) + m ≤ k) →
        (record_states base S i j m T h).1[k]? = T[k]?) ∧
      (∀ jj, j ≤ jj → jj < j + m → base + (i * S + jj) < T.length →
        (record_states base S i j m T h).1[base + (i * S + jj)]?
          = some ⟨toU16 (h.history.getD jj (-1)), h.score.getD jj WORST_SCORE⟩) ∧
      (record_states base S i j m T h).2
        = { h with history := (record_states base S i j m T h).2.history } ∧
      (record_states base S i j m T h).2.history.length = h.history.length ∧
      (∀ jj, j ≤ jj → jj < j + m → jj < h.history.length →
        (record_states base S i j m T h).2.history[jj]? = some (((i * S + jj : Nat)) : Int)) ∧
      (∀ jj, (jj < j ∨ j + m ≤ jj) →
        (record_states base S i j m T h).2.history[jj]? = h.history[jj]?) := by
  intro m
  induction m with
  | zero =>
    intro j T h
    exact ⟨rfl, fun _ _ => rfl, fun jj h1 h2 => by omega, rfl, rfl,
      fun jj h1 h2 => by omega, fun _ _ => rfl⟩
  | succ m ih =>
    intro j T h
    simp only [record_states]
    obtain ⟨i1, i2, i3, i4, i5, i6, i7⟩ := ih (j + 1)
      (T.set (base + (i * S + j))
        ⟨toU16 (h.history.getD j (-1)), h.score.getD j WORST_SCORE⟩)
      { h with history := h.history.set j ((i * S + j : Nat) : Int) }
    refine ⟨?_, ?_, ?_, ?_, ?_, ?_, ?_⟩
    · rw [i1, List.length_set]
    · intro k hk
      rw [i2 k (by omega), List.getElem?_set_ne (by omega)]
    · intro jj h1 h2 h3
      by_cases hj : jj = j
      · subst hj
        rw [i2 _ (by omega), List.getElem?_set_self h3]
      · rw [i3 jj (by omega) (by omega) (by simpa using h3)]
        simp only [List.getD_eq_getElem?_getD, List.getElem?_set_ne (Ne.symm hj)]
    · rw [i4]
    · rw [i5, List.length_set]
    · intro jj h1 h2 h3
      by_cases hj : jj = j
      · subst hj
        rw [i7 _ (by omega)]
        exact List.getElem?_set_self h3
      · exact i6 jj (by omega) (by omega) (by simpa using h3)
    · intro jj hjj
      rw [i7 jj (by omega)]
      exact List.getElem?_set_ne (by omega)

/-- What the outer loop of `record_transitions` does for the instances
`i, i + 1, ...` held in `hs`. -/
theorem record_loop_spec (base S f : Nat) :
    ∀ (hs : List Hmm) (i : Nat) (T : List Hist),
      (record_loop base S f i hs T).1.length = T.length ∧
      (record_loop base S f i hs T).2.length = hs.length ∧
      (∀ k, (k < base + i * S ∨ base + (i + hs.length) * S ≤ k) →
        (record_loop base S f i hs T).1[k]? = T[k]?) ∧
      (∀ a (ha : a < hs.length),
        ((hs.get ⟨a, ha⟩).frame < (f : Int) →
          (record_loop base S f i hs T).2[a]? = some (hs.get ⟨a, ha⟩) ∧
          ∀ j, j < S →
            (record_loop base S f i hs T).1[base + ((i + a) * S + j)]?
              = T[base + ((i + a) * S + j)]?) ∧
        (¬ (hs.get ⟨a, ha⟩).frame < (f : Int) →
          ∃ h1, (record_loop base S f i hs T).2[a]? = some h1 ∧
            h1 = { hs.get ⟨a, ha⟩ with history := h1.history } ∧
            h1.history.length = (hs.get ⟨a, ha⟩).history.length ∧
            (∀ j, j < S → j < (hs.get ⟨a, ha⟩).history.length →
              h1.history[j]? = some ((((i + a) * S + j : Nat)) : Int)) ∧
            (∀ j, j < S → base + ((i + a) * S + j) < T.length →
              (record_loop base S f i hs T).1[base + ((i + a) * S + j)]?
                = some ⟨toU16 ((hs.get ⟨a, ha⟩).history.getD j (-1)),
                    (hs.get ⟨a, ha⟩).score.getD j WORST_SCORE⟩))) := by
  intro hs
  induction hs with
  | nil =>
    intro i T
    exact ⟨rfl, rfl, fun _ _ => rfl, fun a ha => by simp at ha⟩
  | cons h rest ih =>
    intro i T
    have eS : (i + 1) * S = i * S + S := by ring
    have eL : (i + (h :: rest).length) * S = (i + 1 + rest.length) * S := by
      simp only [List.length_cons]; ring
    by_cases hfr : h.frame < (f : Int)
    · -- the instance is skipped
      obtain ⟨r1, r2, r3, r4⟩ := ih (i + 1) T
      have hdef : record_loop base S f i (h :: rest) T
          = ((record_loop base S f (i + 1) rest T).1,
              h :: (record_loop base S f (i + 1) rest T).2) := by
        simp only [record_loop, if_pos hfr]
      rw [hdef]
      refine ⟨r1, by simp [r2], ?_, ?_⟩
      · intro k hk
        exact r3 k (by rw [eL] at hk; omega)
      · intro a ha
        cases a with
        | zero =>
          refine ⟨fun _ => ⟨by simp, fun j hj => ?_⟩, fun hc => absurd hfr hc⟩
          exact r3 _ (by simp only [Nat.add_zero]; omega)
        | succ a =>
          have ha1 : a < rest.length := by simpa using ha
          have ea : (i + (a + 1)) = (i + 1 + a) := by omega
          have := r4 a ha1
          simp only [List.get_cons_succ, List.getElem?_cons_succ, ea]
          exact this
    · -- the instance is recorded
      obtain ⟨q1, q2, q3, q4, q5, q6, -⟩ := record_states_spec base S i S 0 T h
      obtain ⟨r1, r2, r3, r4⟩ := ih (i + 1) (record_states base S i 0 S T h).1
      have hdef : record_loop base S f i (h :: rest) T
          = ((record_loop base S f (i + 1) rest (record_states base S i 0 S T h).1).1,
              (record_states base S i 0 S T h).2 ::
                (record_loop base S f (i + 1) rest (record_states base S i 0 S T h).1).2) := by
        simp only [record_loop, if_neg hfr]
      rw [hdef]
      refine ⟨by rw [r1, q1], by simp [r2], ?_, ?_⟩
      · intro k hk
        rw [r3 k (by rw [eL] at hk; omega)]
        have hlen : (i + 1 + rest.length) * S = i * S + S + rest.length * S := by ring
        exact q2 k (by rw [eL] at hk; omega)
      · intro a ha
        cases a with
        | zero =>
          refine ⟨fun hc => absurd hc hfr, fun _ => ?_⟩
          refine ⟨(record_states base S i 0 S T h).2, by simp, q4, q5, ?_, ?_⟩
          · intro j hj hjl
            have := q6 j (by omega) (by omega) hjl
            simpa using this
          · intro j hj hjl
            simp only [Nat.add_zero] at hjl ⊢
            rw [r3 _ (by omega)]
            exact q3 j (by omega) (by omega) hjl
        | succ a =>
          have ha1 : a < rest.length := by simpa using ha
          have ea : (i + (a + 1)) = (i + 1 + a) := by omega
          have hmul : (i + 1 + a) * S = i * S + S + a * S := by ring
          obtain ⟨s1, s2⟩ := r4 a ha1
          simp only [List.get_cons_succ, List.getElem?_cons_succ, ea]
          refine ⟨fun hc => ?_, fun hc => ?_⟩
          · obtain ⟨t1, t2⟩ := s1 hc
            refine ⟨t1, fun j hj => ?_⟩
            rw [t2 j hj]
            exact q2 _ (by omega)
          · obtain ⟨h1, u1, u2, u3, u4, u5⟩ := s2 hc
            refine ⟨h1, u1, u2, u3, u4, fun j hj hjl => ?_⟩
            exact u5 j hj (by rw [q1]; exact hjl)

theorem slot_in_range (S n i j : Nat) (hi : i < n) (hj : j < S) : i * S + j < S * n := by
  have h1 : (i + 1) * S ≤ n * S := Nat.mul_le_mul_right _ (by omega)
  have h2 : (i + 1) * S = i * S + S := by ring
  have h3 : S * n = n * S := Nat.mul_comm _ _
  omega

theorem slot_injective (S i j i2 j2 : Nat) (hj : j < S) (hj2 : j2 < S)
    (h : i * S + j = i2 * S + j2) : i = i2 ∧ j = j2 := by
  have key : i = i2 := by
    rcases Nat.lt_trichotomy i i2 with hlt | heq | hgt
    · have h1 : (i + 1) * S ≤ i2 * S := Nat.mul_le_mul_right _ (by omega)
      have h2 : (i + 1) * S = i * S + S := by ring
      omega
    · exact heq
    · have h1 : (i2 + 1) * S ≤ i * S := Nat.mul_le_mul_right _ (by omega)
      have h2 : (i2 + 1) * S = i2 * S + S := by ring
      omega
  subst key
  exact ⟨rfl, by omega⟩

/-- C17 (token recording). Let `S` be the number of states per phone and let the
table width be `S` times the number of phones, on a stack whose array holds
exactly the allocated frames and with instances of `S` states each. After
`record_transitions(f)`: for every instance `i` whose marker is at least `f`
and every local state `j < S`, slot `i * S + j` of frame `f` holds the
backpointer (as a 16-bit id: a backpointer in `[0, 65536)` is stored as it is,
the sentinel `-1` as `0xffff`) and score that state had before the call, the
state's backpointer is now `i * S + j`, and nothing else in the instance has
changed; for every instance whose marker is below `f`, its `S` slots of frame
`f` hold the record left by the `0xff` fill (id `0xffff`) and the instance is
unchanged. Distinct `(i, j)` give distinct slots, all below the table width. -/
theorem record_transitions_rule (junk : Hist) (s : SAS) (f : Nat)
    (hwf : s.tokens.length = s.n_emit_state * s.n_fr_alloc)
    (hwidth : s.n_emit_state = s.ctx_n_emit_state * s.hmms.length)
    (hstates : ∀ h ∈ s.hmms, h.score.length = s.ctx_n_emit_state ∧
      h.history.length = s.ctx_n_emit_state) :
    (∀ i (hi : i < s.hmms.length),
      ((f : Int) ≤ (s.hmms.get ⟨i, hi⟩).frame →
        ∃ h1, (record_transitions junk s f).hmms[i]? = some h1 ∧
          h1 = { s.hmms.get ⟨i, hi⟩ with history := h1.history } ∧
          ∀ j, j < s.ctx_n_emit_state →
            ∃ bp sc, (s.hmms.get ⟨i, hi⟩).history[j]? = some bp ∧
              (s.hmms.get ⟨i, hi⟩).score[j]? = some sc ∧
              (record_transitions junk s f).tokens[
                  f * s.n_emit_state + (i * s.ctx_n_emit_state + j)]?
                = some ⟨toU16 bp, sc⟩ ∧
              h1.history[j]? = some (((i * s.ctx_n_emit_state + j : Nat)) : Int)) ∧
      ((s.hmms.get ⟨i, hi⟩).frame < (f : Int) →
        (record_transitions junk s f).hmms[i]? = some (s.hmms.get ⟨i, hi⟩) ∧
        ∀ j, j < s.ctx_n_emit_state →
          (record_transitions junk s f).tokens[
              f * s.n_emit_state + (i * s.ctx_n_emit_state + j)]?
            = some invalid_hist)) ∧
    invalid_hist.id = 0xffff ∧
    (∀ bp : Int, 0 ≤ bp → bp < 65536 → ((toU16 bp : Nat) : Int) = bp) ∧
    toU16 (-1) = 0xffff ∧
    (∀ i j, i < s.hmms.length → j < s.ctx_n_emit_state →
      i * s.ctx_n_emit_state + j < s.n_emit_state) ∧
    (∀ i j i2 j2, j < s.ctx_n_emit_state → j2 < s.ctx_n_emit_state →
      i * s.ctx_n_emit_state + j = i2 * s.ctx_n_emit_state + j2 → i = i2 ∧ j = j2) := by
  have hrange : ∀ i j, i < s.hmms.length → j < s.ctx_n_emit_state →
      i * s.ctx_n_emit_state + j < s.n_emit_state := by
    intro i j hi hj
    rw [hwidth]
    exact slot_in_range _ _ _ _ hi hj
  have hu : ∀ bp : Int, 0 ≤ bp → bp < 65536 → ((toU16 bp : Nat) : Int) = bp := by
    intro bp h0 h1
    unfold toU16
    rw [Int.emod_eq_of_lt h0 h1, Int.toNat_of_nonneg h0]
  refine ⟨?_, rfl, hu, by decide, hrange,
    fun i j i2 j2 hj hj2 h => slot_injective _ i j i2 j2 hj hj2 h⟩
  intro i hi
  obtain ⟨T, A, heq, -, -, -, hTf, -⟩ := extend_realloc junk s f hwf
  have hrec : record_transitions junk s f
      = { s with
          n_fr_alloc := A
          tokens := (record_loop (f * s.n_emit_state) s.ctx_n_emit_state f 0 s.hmms
            (memset_ff (f * s.n_emit_state) s.n_emit_state T)).1
          hmms := (record_loop (f * s.n_emit_state) s.ctx_n_emit_state f 0 s.hmms
            (memset_ff (f * s.n_emit_state) s.n_emit_state T)).2 } := by
    simp only [record_transitions, heq]
  rw [hrec]
  obtain ⟨-, -, -, r4⟩ := record_loop_spec (f * s.n_emit_state) s.ctx_n_emit_state f s.hmms 0
    (memset_ff (f * s.n_emit_state) s.n_emit_state T)
  obtain ⟨rs, ra⟩ := r4 i hi
  simp only [Nat.zero_add] at rs ra
  obtain ⟨hsc, hhi⟩ := hstates (s.hmms.get ⟨i, hi⟩) (List.get_mem _ _ _)
  constructor
  · intro hact
    obtain ⟨h1, u1, u2, -, u4, u5⟩ := ra (by omega)
    refine ⟨h1, u1, u2, fun j hj => ?_⟩
    have hjh : j < (s.hmms.get ⟨i, hi⟩).history.length := by omega
    have hjs : j < (s.hmms.get ⟨i, hi⟩).score.length := by omega
    refine ⟨(s.hmms.get ⟨i, hi⟩).history[j], (s.hmms.get ⟨i, hi⟩).score[j],
      List.getElem?_eq_getElem hjh, List.getElem?_eq_getElem hjs, ?_, u4 j hj hjh⟩
    have := u5 j hj (by
      rw [memset_ff_length]
      have := hrange i j hi hj
      omega)
    have e1 : (s.hmms.get ⟨i, hi⟩).history.getD j (-1) = (s.hmms.get ⟨i, hi⟩).history[j] := by
      rw [List.getD_eq_getElem?_getD, List.getElem?_eq_getElem hjh]; rfl
    have e2 : (s.hmms.get ⟨i, hi⟩).score.getD j WORST_SCORE
        = (s.hmms.get ⟨i, hi⟩).score[j] := by
      rw [List.getD_eq_getElem?_getD, List.getElem?_eq_getElem hjs]; rfl
    rw [e1, e2] at this
    exact this
  · intro hin
    obtain ⟨t1, t2⟩ := rs hin
    refine ⟨t1, fun j hj => ?_⟩
    simp only
    rw [t2 j hj, memset_ff_getElem?]
    have := hrange i j hi hj
    rw [if_pos ⟨by omega, by omega, by omega⟩]

/-! ## Further instances of the hypotheses -/

/-- C11, witness: on `reported_search` the iterator yields the two word-level
entries, ids 1 and 3, and then ends. -/
theorem seg_sequence_all_entries_witness :
    (seg_collect toy_dict 2 (state_align_search_seg_iter toy_dict reported_search)).map Seg.wid
        = trailing_aux_al.word.map Entry.wid ∧
    (seg_collect toy_dict 2 (state_align_search_seg_iter toy_dict reported_search)).length
        = trailing_aux_al.word.length ∧
    (∀ g, (seg_collect toy_dict 2
        (state_align_search_seg_iter toy_dict reported_search)).getLast? = some g →
      state_align_search_seg_next toy_dict g = none) :=
  seg_sequence_all_entries toy_dict reported_search trailing_aux_al 2 rfl (by decide)

/-- C12, witness: on `two_word_search` the segments are `(1, 0, 3, -12, 0)` and
`(2, 4, 9, -30, 0)`, and the first ends right before the second starts. -/
theorem seg_fields_of_entries_witness :
    (seg_collect toy_dict 2 (state_align_search_seg_iter toy_dict two_word_search)).map
        (fun g => (g.wid, g.sf, g.ef, g.ascr, g.lscr))
      = [(1, 0, 3, -12, 0), (2, 4, 9, -30, 0)] ∧
    ∀ k (hk : k + 1 < (seg_collect toy_dict 2
        (state_align_search_seg_iter toy_dict two_word_search)).length),
      ((seg_collect toy_dict 2 (state_align_search_seg_iter toy_dict two_word_search)).get
          ⟨k, Nat.lt_of_succ_lt hk⟩).ef + 1
        = ((seg_collect toy_dict 2
            (state_align_search_seg_iter toy_dict two_word_search)).get ⟨k + 1, hk⟩).sf :=
  ⟨(seg_fields_of_entries toy_dict two_word_search two_word_al 2 rfl (by decide)).1,
   (seg_fields_of_entries toy_dict two_word_search two_word_al 2 rfl (by decide)).2
     (by
       intro k hk
       have hk0 : k = 0 := by
         have : k + 1 < 2 := hk
         omega
       subst hk0
       rfl)⟩

/-- C13, witness: with `gappy_dict` the second word of `reported_search` (id 3)
is real but has no base string; the function returns `NULL` and only clears
the cached string. -/
theorem hyp_unknown_word_witness :
    state_align_search_hyp gappy_dict reported_search 42
      = some (none, { reported_search with hyp_str := none }, 42) :=
  (hyp_unknown_word gappy_dict reported_search trailing_aux_al 42 rfl
    ⟨{ zero_entry with wid := 3, score := 7 }, by decide, by decide, by decide⟩).1

/-- C14, witness: `two_state_search` and `two_state_rescored` differ in every
recorded score and agree on the origin ids; both finish with the same spans. -/
theorem finish_boundaries_ignore_scores_witness :
    (state_align_search_finish two_state_search).map (fun r => (r.1, all_spans r.2))
        = (state_align_search_finish two_state_rescored).map (fun r => (r.1, all_spans r.2)) ∧
    (state_align_search_finish two_state_rescored).map (fun r => (r.1, all_spans r.2))
        = some (0, some ([(0, 3)], [(0, 3)], [(0, 2), (2, 1)])) :=
  ⟨finish_boundaries_ignore_scores two_state_search two_state_rescored rfl rfl rfl
      (by decide) (by decide),
   by rfl⟩

/-- C17, witness: `two_state_search` (one phone of two states, marker 3) at
frame 3: both slots of frame 3 receive the state's backpointer and score and
the backpointers become the slot indices 0 and 1. -/
theorem record_transitions_rule_witness :
    (record_transitions invalid_hist two_state_search 3).tokens[3 * 2 + (0 * 2 + 0)]?
        = some ⟨0, -30⟩ ∧
    (record_transitions invalid_hist two_state_search 3).tokens[3 * 2 + (0 * 2 + 1)]?
        = some ⟨1, -35⟩ ∧
    (∀ i j, i < two_state_search.hmms.length → j < two_state_search.ctx_n_emit_state →
      i * two_state_search.ctx_n_emit_state + j < two_state_search.n_emit_state) :=
  ⟨by decide, by decide,
   (record_transitions_rule invalid_hist two_state_search 3 (by decide) (by decide)
      (by decide)).2.2.2.2.1⟩

/-- C18, witness: `two_state_search` has three frames allocated; extending for
frame 3 allocates 24 frames and fills frame 3. -/
theorem extend_tokenstack_rule_witness :
    (extend_tokenstack invalid_hist two_state_search 3).n_fr_alloc = 24 ∧
    3 < (extend_tokenstack invalid_hist two_state_search 3).n_fr_alloc ∧
    (∀ j, j < two_state_search.n_emit_state →
      (extend_tokenstack invalid_hist two_state_search 3).tokens[
          3 * two_state_search.n_emit_state + j]? = some invalid_hist) :=
  ⟨by decide,
   (extend_tokenstack_rule invalid_hist two_state_search 3 (by decide)).1,
   (extend_tokenstack_rule invalid_hist two_state_search 3 (by decide)).2.2.2.1⟩

/-- C19, witness: the run on `late_al` before the step for frame 2: both
phones are marked for frame 2, and both are evaluated. -/
theorem run_active_set_agreement_witness :
    step_activated (run plain_collab invalid_hist (initial_search 1 late_al) 2) 2 = [0, 1] ∧
    step_evaluated (run plain_collab invalid_hist (initial_search 1 late_al) 2) 2
      = step_activated (run plain_collab invalid_hist (initial_search 1 late_al) 2) 2 :=
  ⟨by decide,
   (run_active_set_agreement plain_collab invalid_hist 1 late_al (initial_search 1 late_al)
      (by decide) 2).2.1⟩

/-- C20, witness: on `cascade_search` one call at frame 0 enters the second
phone with the first phone's exit (score -5, backpointer 0) and the third with
the second phone's old exit (score -7, backpointer 1). -/
theorem phone_transition_cascade_witness :
    (phone_transition cascade_search 0).hmms[0 + 1]?
        = some (hmm_enter cascade_second (-5) 0 ((0 : Nat) + 1)) ∧
    (phone_transition cascade_search 0).hmms[0 + 2]?
        = some (hmm_enter cascade_third (-7) 1 ((0 : Nat) + 1)) :=
  phone_transition_cascade cascade_search 0 0 cascade_first cascade_second cascade_third
    rfl rfl rfl (by decide) (by decide) (by decide) (by decide) (by decide)

/-! ## The stack stays well formed along a run -/

theorem record_transitions_wf (junk : Hist) (s : SAS) (f : Nat)
    (hwf : s.tokens.length = s.n_emit_state * s.n_fr_alloc) :
    (record_transitions junk s f).tokens.length
      = (record_transitions junk s f).n_emit_state * (record_transitions junk s f).n_fr_alloc := by
  obtain ⟨T, A, heq, -, -, hTlen, -, -⟩ := extend_realloc junk s f hwf
  have hrec : record_transitions junk s f
      = { s with
          n_fr_alloc := A
          tokens := (record_loop (f * s.n_emit_state) s.ctx_n_emit_state f 0 s.hmms
            (memset_ff (f * s.n_emit_state) s.n_emit_state T)).1
          hmms := (record_loop (f * s.n_emit_state) s.ctx_n_emit_state f 0 s.hmms
            (memset_ff (f * s.n_emit_state) s.n_emit_state T)).2 } := by
    simp only [record_transitions, heq]
  rw [hrec]
  simp only
  rw [(record_loop_spec _ _ _ _ _ _).1, memset_ff_length, hTlen]

theorem step_wf (c : Collab) (junk : Hist) (s : SAS) (f : Nat)
    (hwf : s.tokens.length = s.n_emit_state * s.n_fr_alloc) :
    (state_align_search_step c junk s f).tokens.length
      = (state_align_search_step c junk s f).n_emit_state
          * (state_align_search_step c junk s f).n_fr_alloc := by
  have key : ∀ s1 : SAS, s1.tokens.length = s1.n_emit_state * s1.n_fr_alloc →
      (record_transitions junk (phone_transition (prune_hmms
          { (evaluate_hmms c s1 (c.acmod_score f) f).1 with
            best_score := (evaluate_hmms c s1 (c.acmod_score f) f).2 } f) f) f).tokens.length
        = (record_transitions junk (phone_transition (prune_hmms
          { (evaluate_hmms c s1 (c.acmod_score f) f).1 with
            best_score := (evaluate_hmms c s1 (c.acmod_score f) f).2 } f) f) f).n_emit_state
          * (record_transitions junk (phone_transition (prune_hmms
          { (evaluate_hmms c s1 (c.acmod_score f) f).1 with
            best_score := (evaluate_hmms c s1 (c.acmod_score f) f).2 } f) f) f).n_fr_alloc := by
    intro s1 h1
    exact record_transitions_wf junk _ f h1
  by_cases hr : s.best_score - 0x300000 < WORST_SCORE
  · have := key (renormalize_hmms s s.best_score) hwf
    simpa only [state_align_search_step, hr, if_true] using this
  · have := key s hwf
    simpa only [state_align_search_step, hr, if_false] using this

/-- Along every run the token array holds exactly the allocated frames. -/
theorem run_wf (c : Collab) (junk : Hist) (nstate : Nat) (al : Alignment) (s0 : SAS)
    (h : state_align_search_init nstate true al = some s0) (n : Nat) :
    (run c junk s0 n).tokens.length
      = (run c junk s0 n).n_emit_state * (run c junk s0 n).n_fr_alloc := by
  induction n with
  | zero =>
    rw [init_closed nstate al s0 h]
    simp only [run, state_align_search_start]
    cases al.sseq <;> simp
  | succ n ih => exact step_wf c junk _ n ih

end StateAlign
